import Mathlib

/-!
# A chained hash table with string keys (`hashmap.c`, `hashmap.h`)

Shallow embedding of the C sources and the properties proved about them.

Conventions of the embedding.

* Target: an LP64 platform. `unsigned int` is 32 bits wide (arithmetic
  modulo `2 ^ 32`), `size_t` is 64 bits wide.
* A pointer (`const char*`, `void*`) is its address, a natural number; `NULL`
  is address `0`.
* The characters behind key pointers are given by a string memory
  `mem : Ptr → List Int`: `mem p` lists the `char` values (as promoted to
  `int`) found from address `p` on, up to but excluding a terminating `'\0'`.
  A `0` inside the list, or the end of the list, ends the string.  The string
  memory does not change while a table is in use, and key strings are shorter
  than `2 ^ 32` characters, so that the `unsigned int` position counter of
  `hash` does not wrap.
* The chain hanging off a bucket is a `List Node`; the `next` link of a node
  is the tail of the list and the empty list is the `NULL` chain.
* `calloc` always succeeds.
* Calls of the function pointers handed to the operations, and the message
  printed for a `NULL` table, are recorded in order as a list of `Event`s.
* A callback returning `void` is represented by a `Bool` telling whether the
  function pointer is non-`NULL`; `resolve_collision` is `none` for `NULL`
  and `some f` for a function computing `f old_data new_data`.
* Loops whose trip count is not bounded by the data take a fuel argument: the
  number of times the loop condition may be evaluated.
-/

namespace HashMapC

/-- Addresses; the value of a `const char*` or `void*`. -/
abbrev Ptr := Nat

/-- The null pointer. -/
def NULL : Ptr := 0

/-- Number of values of an `unsigned int`. -/
def UINT_RANGE : Nat := 2 ^ 32

/-- String memory: the `char` values stored from an address on. -/
abbrev StrMem := Ptr → List Int

/-- `struct Node` of `hashmap.h`; the `next` field is the rest of the chain. -/
structure Node where
  key : Ptr
  data : Ptr
deriving DecidableEq, Repr

/-- `struct HashMap` of `hashmap.h`: the bucket array and the bucket count. -/
structure HashMap where
  map : List (List Node)
  key_space : Nat
deriving DecidableEq, Repr

/-- Observable calls made by an operation. -/
inductive Event where
  | print
  | resolve_collision (old_data new_data : Ptr)
  | destroy_data (data : Ptr)
  | callback (key data : Ptr)
deriving DecidableEq, Repr

/-- Ways in which the C program leaves defined behaviour. -/
inductive Fault where
  | div_by_zero
  | out_of_bounds
  | null_call
deriving DecidableEq, Repr

/-- Outcome of running an operation. -/
inductive Result (α : Type) where
  | ok (a : α)
  | fault (f : Fault)
  | out_of_fuel
deriving DecidableEq, Repr

/-- The table handle after a call together with the calls made. -/
structure Out where
  hm : Option HashMap
  events : List Event
deriving DecidableEq, Repr

/-- `create_hashmap`, lines 14-19: the bucket array is `calloc`ed, so it has
`key_space` slots, all `NULL`.  (For `key_space = 0` the C function may
dereference a null pointer; the properties below are stated for
`1 ≤ key_space`.) -/
def create_hashmap (key_space : Nat) : HashMap :=
  { map := List.replicate key_space [], key_space := key_space }

/-- The loop of `hash`, lines 34-36: `index += key[i]` in `unsigned int`
arithmetic until the terminator. -/
def hash_loop : List Int → Nat → Nat
  | [], index => index
  | c :: rest, index =>
    if c = 0 then index
    else hash_loop rest (Int.toNat (((index : Int) + c) % (UINT_RANGE : Int)))

/-- `hash`, lines 32-38. -/
def hash (mem : StrMem) (key : Ptr) : Nat :=
  hash_loop (mem key) 0

/-- The `while` loop of `insert_data`, lines 80-87.  `ok none`: the end of the
chain was reached without a match.  `ok (some (chain, ev))`: a node with
`temp->key == key` was found and its data replaced. -/
def insert_loop (key data : Ptr) (resolve_collision : Option (Ptr → Ptr → Ptr)) :
    List Node → Result (Option (List Node × List Event))
  | [] => .ok none
  | temp :: next =>
    if temp.key = key then
      match resolve_collision with
      | none => .fault .null_call
      | some f =>
        .ok (some ({ temp with data := f temp.data data } :: next,
                   [Event.resolve_collision temp.data data]))
    else
      match insert_loop key data resolve_collision next with
      | .ok (some (next', ev)) => .ok (some (temp :: next', ev))
      | r => r

/-- `insert_data`, lines 62-95.  `hash(key) % key_space` is computed in
`size_t` and stored in `unsigned int bucket`; the value is below `2 ^ 32`, so
nothing is lost (`bucket_fits`).  A zero `key_space` is a division by zero. -/
def insert_data (mem : StrMem) (hm : Option HashMap) (key data : Ptr)
    (resolve_collision : Option (Ptr → Ptr → Ptr)) : Result Out :=
  match hm with
  | none => .ok { hm := none, events := [Event.print] }
  | some temphash =>
    if temphash.key_space = 0 then .fault .div_by_zero
    else
      let bucket := hash mem key % temphash.key_space
      match temphash.map[bucket]? with
      | none => .fault .out_of_bounds
      | some [] =>
        .ok { hm := some { temphash with map := temphash.map.set bucket [⟨key, data⟩] },
              events := [] }
      | some (temp :: next) =>
        match insert_loop key data resolve_collision (temp :: next) with
        | .ok (some (chain, ev)) =>
          .ok { hm := some { temphash with map := temphash.map.set bucket chain },
                events := ev }
        | .ok none =>
          .ok { hm := some { temphash with
                              map := temphash.map.set bucket (⟨key, data⟩ :: temp :: next) },
                events := [] }
        | .fault e => .fault e
        | .out_of_fuel => .out_of_fuel

/-- The `while` loop of `get_data`, lines 115-120, with the `return NULL` of
line 121. -/
def get_loop (key : Ptr) : List Node → Ptr
  | [] => NULL
  | temp :: next => if temp.key = key then temp.data else get_loop key next

/-- `get_data`, lines 106-122: the returned pointer, the table and the calls. -/
def get_data (mem : StrMem) (hm : Option HashMap) (key : Ptr) : Result (Ptr × Out) :=
  match hm with
  | none => .ok (0, { hm := none, events := [Event.print] })
  | some temphash =>
    if temphash.key_space = 0 then .fault .div_by_zero
    else
      let bucket := hash mem key % temphash.key_space
      match temphash.map[bucket]? with
      | none => .fault .out_of_bounds
      | some temp => .ok (get_loop key temp, { hm := some temphash, events := [] })

/-- The inner `while` loop of `iterate`, lines 147-150. -/
def iterate_chain (callback : Bool) : List Node → Result (List Event)
  | [] => .ok []
  | temp :: next =>
    if callback then
      match iterate_chain callback next with
      | .ok ev => .ok (Event.callback temp.key temp.data :: ev)
      | r => r
    else .fault .null_call

/-- The `for` loop of `iterate`, lines 142-151.  The counter `i` is an
`unsigned int`, the bound `key_space` a `size_t`. -/
def iterate_loop (temphash : HashMap) (callback : Bool) :
    Nat → Nat → List Event → Result (List Event)
  | 0, _, _ => .out_of_fuel
  | fuel + 1, i, acc =>
    if i < temphash.key_space then
      match temphash.map[i]? with
      | none => .fault .out_of_bounds
      | some temp =>
        match iterate_chain callback temp with
        | .ok ev => iterate_loop temphash callback fuel ((i + 1) % UINT_RANGE) (acc ++ ev)
        | r => r
    else .ok acc

/-- `iterate`, lines 136-152. -/
def iterate (fuel : Nat) (hm : Option HashMap) (callback : Bool) : Result Out :=
  match hm with
  | none => .ok { hm := none, events := [Event.print] }
  | some temphash =>
    match iterate_loop temphash callback fuel 0 [] with
    | .ok ev => .ok { hm := some temphash, events := ev }
    | .fault e => .fault e
    | .out_of_fuel => .out_of_fuel

/-- The `while` loop of `remove_data`, lines 188-204, started at the head of
the chain.  `none`: the end of the chain was reached (`temp == NULL`, line
193).  Otherwise the chain with the matching node unlinked from its
predecessor, and the calls made. -/
def remove_loop (key : Ptr) (destroy_data : Bool) : List Node → Option (List Node × List Event)
  | [] => none
  | temp :: next =>
    if temp.key ≠ key then
      match remove_loop key destroy_data next with
      | some (next', ev) => some (temp :: next', ev)
      | none => none
    else
      some (next, if destroy_data then [Event.destroy_data temp.data] else [])

/-- `remove_data`, lines 167-205. -/
def remove_data (mem : StrMem) (hm : Option HashMap) (key : Ptr) (destroy_data : Bool) :
    Result Out :=
  match hm with
  | none => .ok { hm := none, events := [Event.print] }
  | some temphash =>
    if temphash.key_space = 0 then .fault .div_by_zero
    else
      let bucket := hash mem key % temphash.key_space
      match temphash.map[bucket]? with
      | none => .fault .out_of_bounds
      | some [] => .ok { hm := some temphash, events := [] }
      | some (temp :: next) =>
        if temp.key = key then
          .ok { hm := some { temphash with map := temphash.map.set bucket next },
                events := if destroy_data then [Event.destroy_data temp.data] else [] }
        else
          match remove_loop key destroy_data (temp :: next) with
          | none => .ok { hm := some temphash, events := [] }
          | some (chain, ev) =>
            .ok { hm := some { temphash with map := temphash.map.set bucket chain },
                  events := ev }

/-- The inner `while` loop of `delete_hashmap`, lines 229-236. -/
def delete_chain (destroy_data : Bool) : List Node → List Event
  | [] => []
  | temp :: next =>
    if destroy_data then Event.destroy_data temp.data :: delete_chain destroy_data next
    else delete_chain destroy_data next

/-- The `for` loop of `delete_hashmap`, lines 223-238; as in `iterate` the
counter is an `unsigned int` and the bound a `size_t`.  Returns the bucket
array as it is when the loop is left, and the calls made. -/
def delete_loop (key_space : Nat) (destroy_data : Bool) :
    Nat → Nat → List (List Node) → List Event → Result (List (List Node) × List Event)
  | 0, _, _, _ => .out_of_fuel
  | fuel + 1, i, map, acc =>
    if i < key_space then
      match map[i]? with
      | none => .fault .out_of_bounds
      | some [] => delete_loop key_space destroy_data fuel ((i + 1) % UINT_RANGE) map acc
      | some (temp :: next) =>
        delete_loop key_space destroy_data fuel ((i + 1) % UINT_RANGE) (map.set i [])
          (acc ++ delete_chain destroy_data (temp :: next))
    else .ok (map, acc)

/-- `delete_hashmap`, lines 217-243.  On return the bucket array and the table
have been freed; `Out.hm` holds the table as it was when the `for` loop was
left, just before the two calls of `free`. -/
def delete_hashmap (fuel : Nat) (hm : Option HashMap) (destroy_data : Bool) : Result Out :=
  match hm with
  | none => .ok { hm := none, events := [Event.print] }
  | some temphash =>
    match delete_loop temphash.key_space destroy_data fuel 0 temphash.map [] with
    | .ok (map, ev) => .ok { hm := some { temphash with map := map }, events := ev }
    | .fault e => .fault e
    | .out_of_fuel => .out_of_fuel

/-! ## Specification vocabulary -/

/-- All nodes of the table: the chains in bucket order, each from its head. -/
def entries (t : HashMap) : List Node :=
  t.map.flatten

/-- The keys of the stored entries. -/
def keys (t : HashMap) : List Ptr :=
  (entries t).map Node.key

/-- One call of `insert_data` or of `remove_data`. -/
inductive Op where
  | insert (key data : Ptr) (resolve_collision : Option (Ptr → Ptr → Ptr))
  | remove (key : Ptr) (destroy_data : Bool)

/-- Perform one call on a table handle. -/
def step (mem : StrMem) (hm : Option HashMap) : Op → Result Out
  | .insert key data resolve_collision => insert_data mem hm key data resolve_collision
  | .remove key destroy_data => remove_data mem hm key destroy_data

/-- Perform a sequence of calls, first call first; the handle is the same
pointer throughout and the table behind it is updated in place. -/
def run (mem : StrMem) : Option HashMap → List Op → Result (Option HashMap)
  | hm, [] => .ok hm
  | hm, op :: ops =>
    match step mem hm op with
    | .ok out => run mem out.hm ops
    | .fault e => .fault e
    | .out_of_fuel => .out_of_fuel

/-- Tables reached from `create_hashmap n` by a finite sequence of calls of
`insert_data` and `remove_data`. -/
def Reachable (mem : StrMem) (n : Nat) (t : HashMap) : Prop :=
  ∃ ops : List Op, run mem (some (create_hashmap n)) ops = .ok (some t)

/-- Structural invariant of a table with `n` buckets. -/
structure WF (mem : StrMem) (n : Nat) (t : HashMap) : Prop where
  key_space_eq : t.key_space = n
  length_eq : t.map.length = n
  nodup : ∀ (i : Nat) (chain : List Node), t.map[i]? = some chain → (chain.map Node.key).Nodup
  placed : ∀ (i : Nat) (chain : List Node), t.map[i]? = some chain →
    ∀ nd ∈ chain, hash mem nd.key % n = i

/-- A string memory with the string "x" at addresses 1 and 2, "a" at address
3, "b" at address 4 and the empty string everywhere else. -/
def mem_ex : StrMem := fun p =>
  if p = 1 then [120] else if p = 2 then [120] else if p = 3 then [97]
  else if p = 4 then [98] else []

/-- Whether key `k` counts as stored after a sequence of calls, following the
words of the specification: a key is stored from a call of `insert_data` with
it until the next call of `remove_data` with it.  `b` tells whether it is
stored before the first call. -/
def stored_after (k : Ptr) : Bool → List Op → Bool
  | b, [] => b
  | b, Op.insert key _ _ :: ops => stored_after k (if key = k then true else b) ops
  | b, Op.remove key _ :: ops => stored_after k (if key = k then false else b) ops

/-- The characters of a key: the `char` values stored before the terminating
`'\0'`. -/
def key_chars (s : List Int) : List Int :=
  s.takeWhile fun c => decide (c ≠ 0)

/-- A string memory with "abc" at address 1 and "cab" everywhere else. -/
def mem_anagram : StrMem := fun p => if p = 1 then [97, 98, 99] else [99, 97, 98]

/-! ## The chain loops -/

theorem insert_loop_absent (key data : Ptr) (rc : Option (Ptr → Ptr → Ptr)) (chain : List Node)
    (h : key ∉ chain.map Node.key) : insert_loop key data rc chain = .ok none := by
  induction chain with
  | nil => rfl
  | cons temp next ih =>
    simp only [List.map_cons, List.mem_cons, not_or] at h
    have hne : temp.key ≠ key := fun e => h.1 e.symm
    simp [insert_loop, hne, ih h.2]

theorem insert_loop_present (key data : Ptr) (f : Ptr → Ptr → Ptr) (chain : List Node)
    (h : key ∈ chain.map Node.key) :
    ∃ c, insert_loop key data (some f) chain
          = .ok (some (c, [Event.resolve_collision (get_loop key chain) data]))
      ∧ c.map Node.key = chain.map Node.key
      ∧ get_loop key c = f (get_loop key chain) data
      ∧ (∀ k, k ≠ key → get_loop k c = get_loop k chain)
      ∧ (∀ nd ∈ c, nd.key ≠ key → nd ∈ chain) := by
  induction chain with
  | nil => simp at h
  | cons temp next ih =>
    by_cases hk : temp.key = key
    · refine ⟨{ temp with data := f temp.data data } :: next, ?_, ?_, ?_, ?_, ?_⟩
      · simp [insert_loop, get_loop, hk]
      · simp
      · simp [get_loop, hk]
      · intro k hne
        have : temp.key ≠ k := fun e => hne (e.symm.trans hk)
        simp [get_loop, this]
      · intro nd hnd hne
        simp only [List.mem_cons] at hnd
        rcases hnd with rfl | hnd
        · exact absurd hk hne
        · exact List.mem_cons_of_mem _ hnd
    · have h' : key ∈ next.map Node.key := by
        simp only [List.map_cons, List.mem_cons] at h
        rcases h with h | h
        · exact absurd h.symm hk
        · exact h
      obtain ⟨c, h1, h2, h3, h4, h5⟩ := ih h'
      refine ⟨temp :: c, ?_, ?_, ?_, ?_, ?_⟩
      · simp [insert_loop, get_loop, hk, h1]
      · simp [h2]
      · simp [get_loop, hk, h3]
      · intro k hne
        simp [get_loop, h4 k hne]
      · intro nd hnd hne
        simp only [List.mem_cons] at hnd
        rcases hnd with rfl | hnd
        · exact List.mem_cons_self _ _
        · exact List.mem_cons_of_mem _ (h5 nd hnd hne)

theorem get_loop_absent (key : Ptr) (chain : List Node) (h : key ∉ chain.map Node.key) :
    get_loop key chain = NULL := by
  induction chain with
  | nil => rfl
  | cons temp next ih =>
    simp only [List.map_cons, List.mem_cons, not_or] at h
    have hne : temp.key ≠ key := fun e => h.1 e.symm
    simp [get_loop, hne, ih h.2]

theorem get_loop_stored (key data : Ptr) (chain : List Node)
    (hnd : (chain.map Node.key).Nodup) (h : (⟨key, data⟩ : Node) ∈ chain) :
    get_loop key chain = data := by
  induction chain with
  | nil => simp at h
  | cons temp next ih =>
    simp only [List.map_cons, List.nodup_cons] at hnd
    simp only [List.mem_cons] at h
    rcases h with rfl | h
    · simp [get_loop]
    · have hne : temp.key ≠ key := by
        intro e
        exact hnd.1 (e ▸ List.mem_map_of_mem Node.key h)
      simp [get_loop, hne, ih hnd.2 h]

theorem remove_loop_eq (key : Ptr) (dd : Bool) (chain : List Node) :
    remove_loop key dd chain =
      if key ∈ chain.map Node.key then
        some (chain.eraseP (fun nd => decide (nd.key = key)),
              if dd then [Event.destroy_data (get_loop key chain)] else [])
      else none := by
  induction chain with
  | nil => rfl
  | cons temp next ih =>
    by_cases hk : temp.key = key
    · simp [remove_loop, get_loop, hk]
    · have hk' : ¬ key = temp.key := fun e => hk e.symm
      by_cases hin : key ∈ next.map Node.key
      · have hin' : ∃ a ∈ next, a.key = key := by simpa using hin
        simp [remove_loop, get_loop, hk, hk', ih, hin']
      · have hin' : ¬ ∃ a ∈ next, a.key = key := by simpa using hin
        simp [remove_loop, get_loop, hk, hk', ih, hin']

/-! ## The operations on a table whose bucket is in range -/

theorem insert_data_eq (mem : StrMem) (t : HashMap) (k v : Ptr)
    (rc : Option (Ptr → Ptr → Ptr)) (chain : List Node) (h0 : t.key_space ≠ 0)
    (hc : t.map[hash mem k % t.key_space]? = some chain) :
    insert_data mem (some t) k v rc =
      match insert_loop k v rc chain with
      | .ok (some (c, ev)) =>
        .ok { hm := some { t with map := t.map.set (hash mem k % t.key_space) c }, events := ev }
      | .ok none =>
        .ok { hm := some { t with map := t.map.set (hash mem k % t.key_space) (⟨k, v⟩ :: chain) },
              events := [] }
      | .fault e => .fault e
      | .out_of_fuel => .out_of_fuel := by
  cases chain with
  | nil => simp [insert_data, h0, hc, insert_loop]
  | cons temp next => simp only [insert_data, h0, hc, if_false]

theorem get_data_eq (mem : StrMem) (t : HashMap) (k : Ptr) (chain : List Node)
    (h0 : t.key_space ≠ 0) (hc : t.map[hash mem k % t.key_space]? = some chain) :
    get_data mem (some t) k = .ok (get_loop k chain, { hm := some t, events := [] }) := by
  simp [get_data, h0, hc]

theorem remove_data_eq (mem : StrMem) (t : HashMap) (k : Ptr) (dd : Bool) (chain : List Node)
    (h0 : t.key_space ≠ 0) (hc : t.map[hash mem k % t.key_space]? = some chain) :
    remove_data mem (some t) k dd =
      if k ∈ chain.map Node.key then
        .ok { hm := some { t with map := t.map.set (hash mem k % t.key_space)
                                          (chain.eraseP (fun nd => decide (nd.key = k))) },
              events := if dd then [Event.destroy_data (get_loop k chain)] else [] }
      else .ok { hm := some t, events := [] } := by
  cases chain with
  | nil => simp [remove_data, h0, hc]
  | cons temp next =>
    by_cases hk : temp.key = k
    · simp [remove_data, h0, hc, hk, get_loop]
    · simp only [remove_data, h0, hc, if_false, hk, remove_loop_eq]
      by_cases hin : k ∈ (temp :: next).map Node.key
      · rw [if_pos hin, if_pos hin]
      · rw [if_neg hin, if_neg hin]

/-! ## The structural invariant -/

theorem WF.bucket_lt {mem : StrMem} {n : Nat} {t : HashMap} (h : WF mem n t) (hn : 1 ≤ n)
    (k : Ptr) : hash mem k % t.key_space < t.map.length := by
  rw [h.key_space_eq, h.length_eq]
  exact Nat.mod_lt _ hn

theorem WF.key_space_ne {mem : StrMem} {n : Nat} {t : HashMap} (h : WF mem n t) (hn : 1 ≤ n) :
    t.key_space ≠ 0 := by
  rw [h.key_space_eq]; omega

theorem WF.chain_at {mem : StrMem} {n : Nat} {t : HashMap} (h : WF mem n t) (hn : 1 ≤ n)
    (k : Ptr) : ∃ chain, t.map[hash mem k % t.key_space]? = some chain :=
  have hlt : hash mem k % t.key_space < t.map.length := h.bucket_lt hn k
  ⟨t.map[hash mem k % t.key_space], List.getElem?_eq_getElem hlt⟩

theorem mem_entries {t : HashMap} {nd : Node} :
    nd ∈ entries t ↔ ∃ (i : Nat) (chain : List Node), t.map[i]? = some chain ∧ nd ∈ chain := by
  unfold entries
  rw [List.mem_flatten]
  constructor
  · rintro ⟨chain, hc, hnd⟩
    obtain ⟨i, hi⟩ := List.mem_iff_getElem?.mp hc
    exact ⟨i, chain, hi, hnd⟩
  · rintro ⟨i, chain, hi, hnd⟩
    exact ⟨chain, List.mem_iff_getElem?.mpr ⟨i, hi⟩, hnd⟩

theorem WF.mem_entries_iff {mem : StrMem} {n : Nat} {t : HashMap} (h : WF mem n t)
    {chain : List Node} {nd : Node}
    (hc : t.map[hash mem nd.key % t.key_space]? = some chain) :
    nd ∈ entries t ↔ nd ∈ chain := by
  rw [mem_entries]
  constructor
  · rintro ⟨i, c, hi, hnd⟩
    have hp := h.placed i c hi nd hnd
    rw [h.key_space_eq, hp, hi] at hc
    cases hc
    exact hnd
  · intro hnd
    exact ⟨_, chain, hc, hnd⟩

theorem WF.mem_keys_iff {mem : StrMem} {n : Nat} {t : HashMap} (h : WF mem n t)
    {chain : List Node} {k : Ptr}
    (hc : t.map[hash mem k % t.key_space]? = some chain) :
    k ∈ keys t ↔ k ∈ chain.map Node.key := by
  unfold keys
  simp only [List.mem_map]
  constructor
  · rintro ⟨nd, hnd, rfl⟩
    exact ⟨nd, (h.mem_entries_iff hc).mp hnd, rfl⟩
  · rintro ⟨nd, hnd, rfl⟩
    exact ⟨nd, (h.mem_entries_iff hc).mpr hnd, rfl⟩

theorem WF.set {mem : StrMem} {n : Nat} {t : HashMap} (h : WF mem n t) (b : Nat)
    (c : List Node) (hnd : (c.map Node.key).Nodup)
    (hpl : ∀ nd ∈ c, hash mem nd.key % n = b) :
    WF mem n { t with map := t.map.set b c } := by
  refine ⟨h.key_space_eq, by simp [h.length_eq], ?_, ?_⟩
  · intro i chain hi
    simp only [List.getElem?_set] at hi
    split at hi
    · split at hi
      · cases hi; exact hnd
      · cases hi
    · exact h.nodup i chain hi
  · intro i chain hi
    simp only [List.getElem?_set] at hi
    split at hi
    · split at hi
      · cases hi; subst_vars; exact hpl
      · cases hi
    · exact h.placed i chain hi

theorem WF_create (mem : StrMem) (n : Nat) : WF mem n (create_hashmap n) := by
  refine ⟨rfl, by simp [create_hashmap], ?_, ?_⟩
  · intro i chain hi
    simp only [create_hashmap, List.getElem?_replicate] at hi
    split at hi
    · cases hi; simp
    · cases hi
  · intro i chain hi
    simp only [create_hashmap, List.getElem?_replicate] at hi
    split at hi
    · cases hi; simp
    · cases hi

theorem insert_loop_null (key data : Ptr) (chain : List Node)
    (h : key ∈ chain.map Node.key) : insert_loop key data none chain = .fault .null_call := by
  induction chain with
  | nil => simp at h
  | cons temp next ih =>
    by_cases hk : temp.key = key
    · simp [insert_loop, hk]
    · have h' : key ∈ next.map Node.key := by
        simp only [List.map_cons, List.mem_cons] at h
        rcases h with h | h
        · exact absurd h.symm hk
        · exact h
      simp [insert_loop, hk, ih h']

theorem getElem?_set_self_of_lt {α : Type} (l : List α) (b : Nat) (c : α) (hb : b < l.length) :
    (l.set b c)[b]? = some c := by
  simp [List.getElem?_set, hb]

theorem getElem?_set_of_ne {α : Type} (l : List α) (b i : Nat) (c : α) (hne : b ≠ i) :
    (l.set b c)[i]? = l[i]? := by
  simp [List.getElem?_set, hne]

/-- Effect of `insert_data` with a key that is not in the table. -/
theorem WF.insert_absent {mem : StrMem} {n : Nat} {t : HashMap} (h : WF mem n t) (hn : 1 ≤ n)
    (k v : Ptr) (rc : Option (Ptr → Ptr → Ptr)) (hk : k ∉ keys t) :
    ∃ chain, t.map[hash mem k % t.key_space]? = some chain ∧ k ∉ chain.map Node.key ∧
      insert_data mem (some t) k v rc =
        .ok { hm := some { t with map := t.map.set (hash mem k % t.key_space) (⟨k, v⟩ :: chain) },
              events := [] } ∧
      WF mem n { t with map := t.map.set (hash mem k % t.key_space) (⟨k, v⟩ :: chain) } := by
  obtain ⟨chain, hc⟩ := h.chain_at hn k
  have hk' : k ∉ chain.map Node.key := fun e => hk ((h.mem_keys_iff hc).mpr e)
  refine ⟨chain, hc, hk', ?_, ?_⟩
  · rw [insert_data_eq mem t k v rc chain (h.key_space_ne hn) hc, insert_loop_absent k v rc chain hk']
  · apply h.set
    · simp only [List.map_cons, List.nodup_cons]
      exact ⟨hk', h.nodup _ chain hc⟩
    · intro nd hnd
      simp only [List.mem_cons] at hnd
      rcases hnd with rfl | hnd
      · rw [h.key_space_eq]
      · rw [h.key_space_eq]
        have := h.placed _ chain hc nd hnd
        rw [h.key_space_eq] at this
        exact this

/-- Effect of `insert_data` with a key that is in the table. -/
theorem WF.insert_present {mem : StrMem} {n : Nat} {t : HashMap} (h : WF mem n t) (hn : 1 ≤ n)
    (k v : Ptr) (f : Ptr → Ptr → Ptr) (hk : k ∈ keys t) :
    ∃ chain c, t.map[hash mem k % t.key_space]? = some chain ∧
      c.map Node.key = chain.map Node.key ∧
      get_loop k c = f (get_loop k chain) v ∧
      (∀ k', k' ≠ k → get_loop k' c = get_loop k' chain) ∧
      insert_data mem (some t) k v (some f) =
        .ok { hm := some { t with map := t.map.set (hash mem k % t.key_space) c },
              events := [Event.resolve_collision (get_loop k chain) v] } ∧
      WF mem n { t with map := t.map.set (hash mem k % t.key_space) c } := by
  obtain ⟨chain, hc⟩ := h.chain_at hn k
  have hk' : k ∈ chain.map Node.key := (h.mem_keys_iff hc).mp hk
  obtain ⟨c, h1, h2, h3, h4, h5⟩ := insert_loop_present k v f chain hk'
  refine ⟨chain, c, hc, h2, h3, h4, ?_, ?_⟩
  · rw [insert_data_eq mem t k v (some f) chain (h.key_space_ne hn) hc, h1]
  · apply h.set
    · rw [h2]; exact h.nodup _ chain hc
    · intro nd hnd
      have hmem : nd.key ∈ chain.map Node.key := h2 ▸ List.mem_map_of_mem Node.key hnd
      obtain ⟨nd', hnd', he⟩ := List.mem_map.mp hmem
      have := h.placed _ chain hc nd' hnd'
      rw [he, h.key_space_eq] at this
      rw [h.key_space_eq]
      exact this

/-- Effect of `remove_data` with a key that is in the table. -/
theorem WF.remove_present {mem : StrMem} {n : Nat} {t : HashMap} (h : WF mem n t) (hn : 1 ≤ n)
    (k : Ptr) (dd : Bool) (hk : k ∈ keys t) :
    ∃ chain, t.map[hash mem k % t.key_space]? = some chain ∧ k ∈ chain.map Node.key ∧
      remove_data mem (some t) k dd =
        .ok { hm := some { t with map := t.map.set (hash mem k % t.key_space)
                                          (chain.eraseP (fun nd => decide (nd.key = k))) },
              events := if dd then [Event.destroy_data (get_loop k chain)] else [] } ∧
      WF mem n { t with map := t.map.set (hash mem k % t.key_space)
                                (chain.eraseP (fun nd => decide (nd.key = k))) } := by
  obtain ⟨chain, hc⟩ := h.chain_at hn k
  have hk' : k ∈ chain.map Node.key := (h.mem_keys_iff hc).mp hk
  refine ⟨chain, hc, hk', ?_, ?_⟩
  · rw [remove_data_eq mem t k dd chain (h.key_space_ne hn) hc, if_pos hk']
  · apply h.set
    · exact (h.nodup _ chain hc).sublist ((List.eraseP_sublist chain).map Node.key)
    · intro nd hnd
      have := h.placed _ chain hc nd (List.mem_of_mem_eraseP hnd)
      rw [h.key_space_eq] at this
      rw [h.key_space_eq]
      exact this

/-- Effect of `remove_data` with a key that is not in the table. -/
theorem WF.remove_absent {mem : StrMem} {n : Nat} {t : HashMap} (h : WF mem n t) (hn : 1 ≤ n)
    (k : Ptr) (dd : Bool) (hk : k ∉ keys t) :
    remove_data mem (some t) k dd = .ok { hm := some t, events := [] } := by
  obtain ⟨chain, hc⟩ := h.chain_at hn k
  have hk' : k ∉ chain.map Node.key := fun e => hk ((h.mem_keys_iff hc).mpr e)
  rw [remove_data_eq mem t k dd chain (h.key_space_ne hn) hc, if_neg hk']

/-- A call that returns leaves a table that satisfies the invariant. -/
theorem WF.of_step {mem : StrMem} {n : Nat} {t : HashMap} (h : WF mem n t) (hn : 1 ≤ n)
    (op : Op) (out : Out) (hs : step mem (some t) op = .ok out) :
    ∃ t', out.hm = some t' ∧ WF mem n t' := by
  cases op with
  | insert k v rc =>
    simp only [HashMapC.step] at hs
    by_cases hk : k ∈ keys t
    · cases rc with
      | none =>
        obtain ⟨chain, hc⟩ := h.chain_at hn k
        rw [insert_data_eq mem t k v none chain (h.key_space_ne hn) hc,
          insert_loop_null k v chain ((h.mem_keys_iff hc).mp hk)] at hs
        cases hs
      | some f =>
        obtain ⟨chain, c, _, _, _, _, he, hw⟩ := h.insert_present hn k v f hk
        rw [he] at hs
        cases hs
        exact ⟨_, rfl, hw⟩
    · obtain ⟨chain, _, _, he, hw⟩ := h.insert_absent hn k v rc hk
      rw [he] at hs
      cases hs
      exact ⟨_, rfl, hw⟩
  | remove k dd =>
    simp only [HashMapC.step] at hs
    by_cases hk : k ∈ keys t
    · obtain ⟨chain, _, _, he, hw⟩ := h.remove_present hn k dd hk
      rw [he] at hs
      cases hs
      exact ⟨_, rfl, hw⟩
    · rw [h.remove_absent hn k dd hk] at hs
      cases hs
      exact ⟨_, rfl, h⟩

theorem WF.of_run {mem : StrMem} {n : Nat} (hn : 1 ≤ n) (ops : List Op) :
    ∀ (t : HashMap) (r : Option HashMap), WF mem n t → run mem (some t) ops = .ok r →
      ∃ t', r = some t' ∧ WF mem n t' := by
  induction ops with
  | nil =>
    intro t r h hr
    simp only [HashMapC.run] at hr
    cases hr
    exact ⟨t, rfl, h⟩
  | cons op ops ih =>
    intro t r h hr
    simp only [HashMapC.run] at hr
    cases hst : HashMapC.step mem (some t) op with
    | ok out =>
      rw [hst] at hr
      obtain ⟨t1, h1, hw1⟩ := h.of_step hn op out hst
      simp only [h1] at hr
      exact ih t1 r hw1 hr
    | fault e => rw [hst] at hr; cases hr
    | out_of_fuel => rw [hst] at hr; cases hr

/-- Every reachable table satisfies the structural invariant. -/
theorem Reachable.wf {mem : StrMem} {n : Nat} {t : HashMap} (hn : 1 ≤ n)
    (hr : Reachable mem n t) : WF mem n t := by
  obtain ⟨ops, hops⟩ := hr
  obtain ⟨t', h1, hw⟩ := WF.of_run hn ops (create_hashmap n) (some t) (WF_create mem n) hops
  cases h1
  exact hw

/-! ## Insertion followed by lookup -/

/-- C1: on a table reached from `create_hashmap n`, `1 ≤ n`, inserting a key
that is not stored, with any value and any collision policy (a `NULL` one
included), returns without calling the policy, and `get_data` with that key
then returns exactly the inserted value. -/
theorem insert_absent_then_get (mem : StrMem) (n : Nat) (t : HashMap) (k v : Ptr)
    (rc : Option (Ptr → Ptr → Ptr)) (hn : 1 ≤ n) (hr : Reachable mem n t) (hk : k ∉ keys t) :
    ∃ t', insert_data mem (some t) k v rc = .ok { hm := some t', events := [] } ∧
      get_data mem (some t') k = .ok (v, { hm := some t', events := [] }) := by
  have h := hr.wf hn
  obtain ⟨chain, hc, _, he, hw⟩ := h.insert_absent hn k v rc hk
  refine ⟨_, he, ?_⟩
  have hc' : (t.map.set (hash mem k % t.key_space) (⟨k, v⟩ :: chain))[hash mem k % t.key_space]?
      = some (⟨k, v⟩ :: chain) := getElem?_set_self_of_lt _ _ _ (h.bucket_lt hn k)
  rw [get_data_eq mem ⟨t.map.set (hash mem k % t.key_space) (⟨k, v⟩ :: chain), t.key_space⟩ k
    (⟨k, v⟩ :: chain) (h.key_space_ne hn) hc']
  simp [get_loop]

/-- C1 at a concrete input: one bucket holding the key at address 3; the key at
address 4 is inserted with value 2 and a `NULL` policy. -/
theorem insert_absent_then_get_witness :
    ∃ t', insert_data mem_ex (some ⟨[[⟨3, 1⟩]], 1⟩) 4 2 none
        = .ok { hm := some t', events := [] } ∧
      get_data mem_ex (some t') 4 = .ok (2, { hm := some t', events := [] }) :=
  insert_absent_then_get mem_ex 1 ⟨[[⟨3, 1⟩]], 1⟩ 4 2 none (by decide)
    ⟨[Op.insert 3 1 none], by decide⟩ (by decide)

theorem map_set_keys (l : List (List Node)) (b : Nat) (c chain : List Node)
    (hc : l[b]? = some chain) (hk : c.map Node.key = chain.map Node.key) :
    (l.set b c).map (List.map Node.key) = l.map (List.map Node.key) := by
  apply List.ext_getElem?
  intro i
  simp only [List.getElem?_map, List.getElem?_set]
  split
  · subst_vars
    split
    · simp [hc, hk]
    · rename_i hlt
      simp [List.getElem?_eq_none (Nat.le_of_not_lt hlt)]
  · rfl

/-- C2: on a reachable table in which key `k` is stored with value `old`,
`insert_data` with `k`, a value `new` and a policy `f` calls `f` exactly once,
on `(old, new)` in this order; afterwards `get_data` with `k` returns
`f old new`, and the keys of every chain are what they were, position by
position: no entry is created, every chain keeps its length and the entry
keeps its stored key. -/
theorem insert_existing_merges (mem : StrMem) (n : Nat) (t : HashMap) (k old new : Ptr)
    (f : Ptr → Ptr → Ptr) (hn : 1 ≤ n) (hr : Reachable mem n t)
    (hs : (⟨k, old⟩ : Node) ∈ entries t) :
    ∃ t', insert_data mem (some t) k new (some f)
        = .ok { hm := some t', events := [Event.resolve_collision old new] } ∧
      get_data mem (some t') k = .ok (f old new, { hm := some t', events := [] }) ∧
      t'.map.map (List.map Node.key) = t.map.map (List.map Node.key) ∧
      t'.map.map List.length = t.map.map List.length ∧
      t'.key_space = t.key_space := by
  have h := hr.wf hn
  have hk : k ∈ keys t := List.mem_map_of_mem Node.key hs
  obtain ⟨chain, c, hc, h2, h3, _, he, hw⟩ := h.insert_present hn k new f hk
  have hold : get_loop k chain = old :=
    get_loop_stored k old chain (h.nodup _ chain hc) ((h.mem_entries_iff hc).mp hs)
  rw [hold] at he h3
  have hc' : (t.map.set (hash mem k % t.key_space) c)[hash mem k % t.key_space]? = some c :=
    getElem?_set_self_of_lt _ _ _ (h.bucket_lt hn k)
  have hkeys := map_set_keys t.map _ c chain hc h2
  refine ⟨_, he, ?_, hkeys, ?_, rfl⟩
  · rw [get_data_eq mem ⟨t.map.set (hash mem k % t.key_space) c, t.key_space⟩ k c
      (h.key_space_ne hn) hc', h3]
  · have := congrArg (List.map List.length) hkeys
    simpa [List.map_map, Function.comp_def] using this

/-- C2 at the input of the scenario: four buckets, "x" (address 1) stored with
10, then inserted again with 20 under the policy `old + new`; the lookup
returns 30. -/
theorem insert_existing_merges_witness :
    ∃ t', insert_data mem_ex (some ⟨[[⟨1, 10⟩], [], [], []], 4⟩) 1 20 (some (fun a b => a + b))
        = .ok { hm := some t', events := [Event.resolve_collision 10 20] } ∧
      get_data mem_ex (some t') 1 = .ok (30, { hm := some t', events := [] }) ∧
      t'.map.map (List.map Node.key) = [[1], [], [], []] ∧
      t'.map.map List.length = [1, 0, 0, 0] ∧
      t'.key_space = 4 :=
  insert_existing_merges mem_ex 4 ⟨[[⟨1, 10⟩], [], [], []], 4⟩ 1 10 20 (fun a b => a + b)
    (by decide) ⟨[Op.insert 1 10 none], by decide⟩ (by decide)

/-- C3, the code compares addresses: the strings at addresses 1 and 2 have the
same characters; with the key at address 1 stored with value 10 in a table of
four buckets, `get_data` with the key at address 2 returns `NULL`,
`insert_data` with it adds a second entry without calling the policy, and
`remove_data` with it removes nothing and calls nothing. -/
theorem equal_content_other_address_not_matched :
    mem_ex 1 = mem_ex 2 ∧
    insert_data mem_ex (some (create_hashmap 4)) 1 10 none
      = .ok { hm := some ⟨[[⟨1, 10⟩], [], [], []], 4⟩, events := [] } ∧
    get_data mem_ex (some ⟨[[⟨1, 10⟩], [], [], []], 4⟩) 2
      = .ok (NULL, { hm := some ⟨[[⟨1, 10⟩], [], [], []], 4⟩, events := [] }) ∧
    insert_data mem_ex (some ⟨[[⟨1, 10⟩], [], [], []], 4⟩) 2 20 (some (fun _ new_data => new_data))
      = .ok { hm := some ⟨[[⟨2, 20⟩, ⟨1, 10⟩], [], [], []], 4⟩, events := [] } ∧
    remove_data mem_ex (some ⟨[[⟨1, 10⟩], [], [], []], 4⟩) 2 true
      = .ok { hm := some ⟨[[⟨1, 10⟩], [], [], []], 4⟩, events := [] } := by
  decide

/-! ## Uniqueness of keys within a chain -/

theorem run_append (mem : StrMem) (ops1 ops2 : List Op) :
    ∀ hm : Option HashMap, run mem hm (ops1 ++ ops2) =
      match run mem hm ops1 with
      | .ok hm1 => run mem hm1 ops2
      | .fault e => .fault e
      | .out_of_fuel => .out_of_fuel := by
  induction ops1 with
  | nil => intro hm; rfl
  | cons op ops ih =>
    intro hm
    simp only [List.cons_append, HashMapC.run]
    cases HashMapC.step mem hm op with
    | ok out => exact ih out.hm
    | fault e => rfl
    | out_of_fuel => rfl

theorem Reachable.extend {mem : StrMem} {n : Nat} {t t' : HashMap} (hr : Reachable mem n t)
    (ops : List Op) (h : run mem (some t) ops = .ok (some t')) : Reachable mem n t' := by
  obtain ⟨ops0, h0⟩ := hr
  refine ⟨ops0 ++ ops, ?_⟩
  rw [run_append, h0]
  exact h

/-- Repeated insertion of one key, with policies that may be `NULL`: when the
calls return, the chain of the key's bucket has grown by one entry if the key
was absent and has kept its length if the key was present. -/
theorem WF.insert_many_length {mem : StrMem} {n : Nat} (hn : 1 ≤ n) (k : Ptr)
    (ins : List (Ptr × Option (Ptr → Ptr → Ptr))) :
    ∀ (t : HashMap) (r : Option HashMap), WF mem n t →
      run mem (some t) (ins.map fun p => Op.insert k p.1 p.2) = .ok r →
      ∃ t' chain chain', r = some t' ∧ WF mem n t' ∧
        t.map[hash mem k % n]? = some chain ∧ t'.map[hash mem k % n]? = some chain' ∧
        chain'.length ≤ chain.length + (if k ∈ keys t then 0 else 1) ∧
        (ins ≠ [] → k ∈ keys t') := by
  induction ins with
  | nil =>
    intro t r h hr
    simp only [List.map_nil, HashMapC.run] at hr
    cases hr
    obtain ⟨chain, hc⟩ := h.chain_at hn k
    rw [h.key_space_eq] at hc
    exact ⟨t, chain, chain, rfl, h, hc, hc, by omega, fun e => absurd rfl e⟩
  | cons p ins ih =>
    intro t r h hr
    simp only [List.map_cons, HashMapC.run, HashMapC.step] at hr
    have hks := h.key_space_eq
    by_cases hk : k ∈ keys t
    · cases hp : p.2 with
      | none =>
        obtain ⟨chain, hc⟩ := h.chain_at hn k
        rw [hp, insert_data_eq mem t k p.1 none chain (h.key_space_ne hn) hc,
          insert_loop_null k p.1 chain ((h.mem_keys_iff hc).mp hk)] at hr
        cases hr
      | some f =>
        obtain ⟨chain, c, hc, h2, _, _, he, hw⟩ := h.insert_present hn k p.1 f hk
        rw [hp, he] at hr
        simp only at hr
        obtain ⟨t', chain1, chain', hr', hw', hc1, hc', hlen, hkk⟩ := ih _ r hw hr
        have hc1' : (t.map.set (hash mem k % t.key_space) c)[hash mem k % t.key_space]? = some c :=
          getElem?_set_self_of_lt _ _ _ (h.bucket_lt hn k)
        rw [hks] at hc1' hc
        simp only [hks] at hc1
        rw [hc1'] at hc1
        cases hc1
        have hk1 : k ∈ keys (⟨t.map.set (hash mem k % t.key_space) c, t.key_space⟩ : HashMap) := by
          have hcc : (⟨t.map.set (hash mem k % t.key_space) c, t.key_space⟩ : HashMap).map[
              hash mem k % (⟨t.map.set (hash mem k % t.key_space) c, t.key_space⟩ :
                HashMap).key_space]? = some c := by
            simp only [hks]; exact hc1'
          rw [hw.mem_keys_iff hcc, h2]
          rw [← hks] at hc
          exact (h.mem_keys_iff hc).mp hk
        have hl : c.length = chain.length := by
          have := congrArg List.length h2
          simpa using this
        refine ⟨t', chain, chain', hr', hw', hc, hc', ?_, ?_⟩
        · rw [if_pos hk1] at hlen
          rw [if_pos hk]
          omega
        · intro _
          rcases ins with _ | ⟨q, ins⟩
          · simp only [List.map_nil, HashMapC.run] at hr
            cases hr
            cases hr'
            exact hk1
          · exact hkk (by simp)
    · obtain ⟨chain, hc, hkc, he, hw⟩ := h.insert_absent hn k p.1 p.2 hk
      rw [he] at hr
      simp only at hr
      obtain ⟨t', chain1, chain', hr', hw', hc1, hc', hlen, hkk⟩ := ih _ r hw hr
      have hc1' : (t.map.set (hash mem k % t.key_space) (⟨k, p.1⟩ :: chain))[
          hash mem k % t.key_space]? = some (⟨k, p.1⟩ :: chain) :=
        getElem?_set_self_of_lt _ _ _ (h.bucket_lt hn k)
      rw [hks] at hc1' hc
      simp only [hks] at hc1
      rw [hc1'] at hc1
      cases hc1
      have hk1 : k ∈ keys (⟨t.map.set (hash mem k % t.key_space) (⟨k, p.1⟩ :: chain),
          t.key_space⟩ : HashMap) := by
        have hcc : (⟨t.map.set (hash mem k % t.key_space) (⟨k, p.1⟩ :: chain),
            t.key_space⟩ : HashMap).map[hash mem k %
              (⟨t.map.set (hash mem k % t.key_space) (⟨k, p.1⟩ :: chain), t.key_space⟩ :
                HashMap).key_space]? = some (⟨k, p.1⟩ :: chain) := by
          simp only [hks]; exact hc1'
        rw [hw.mem_keys_iff hcc]
        simp
      refine ⟨t', chain, chain', hr', hw', hc, hc', ?_, ?_⟩
      · rw [if_pos hk1] at hlen
        rw [if_neg hk]
        simp only [List.length_cons] at hlen
        omega
      · intro _
        rcases ins with _ | ⟨q, ins⟩
        · simp only [List.map_nil, HashMapC.run] at hr
          cases hr
          cases hr'
          exact hk1
        · exact hkk (by simp)

/-- Repeated insertion of one key returns when every policy is supplied. -/
theorem WF.insert_many_returns {mem : StrMem} {n : Nat} (hn : 1 ≤ n) (k : Ptr)
    (ins : List (Ptr × Option (Ptr → Ptr → Ptr))) (hall : ∀ p ∈ ins, p.2 ≠ none) :
    ∀ t : HashMap, WF mem n t →
      ∃ r, run mem (some t) (ins.map fun p => Op.insert k p.1 p.2) = .ok r := by
  induction ins with
  | nil => intro t _; exact ⟨some t, rfl⟩
  | cons p ins ih =>
    intro t h
    simp only [List.map_cons, run, step]
    have hrest : ∀ q ∈ ins, q.2 ≠ none := fun q hq => hall q (List.mem_cons_of_mem _ hq)
    by_cases hk : k ∈ keys t
    · cases hp : p.2 with
      | none => exact absurd hp (hall p (List.mem_cons_self _ _))
      | some f =>
        obtain ⟨chain, c, _, _, _, _, he, hw⟩ := h.insert_present hn k p.1 f hk
        rw [he]
        exact ih hrest _ hw
    · obtain ⟨chain, _, _, he, hw⟩ := h.insert_absent hn k p.1 p.2 hk
      rw [he]
      exact ih hrest _ hw

theorem WF.chain_nodup {mem : StrMem} {n : Nat} {t : HashMap} (h : WF mem n t) :
    ∀ chain ∈ t.map, (chain.map Node.key).Nodup := by
  intro chain hc
  obtain ⟨i, hi⟩ := List.mem_iff_getElem?.mp hc
  exact h.nodup i chain hi

/-- C4: in a table reached from `create_hashmap n`, `1 ≤ n`, no chain holds
two entries whose keys are equal under the comparison of the table (`==` on
the key pointers).  Consequently, inserting one key any number of times, with
any values and policies: if the calls return, the chain of the key's bucket
has at most one entry more than before and the chains of the final table are
again free of duplicates; and the calls do return when no policy is `NULL`. -/
theorem chain_keys_unique (mem : StrMem) (n : Nat) (t : HashMap) (k : Ptr)
    (ins : List (Ptr × Option (Ptr → Ptr → Ptr))) (hn : 1 ≤ n) (hr : Reachable mem n t) :
    (∀ chain ∈ t.map, (chain.map Node.key).Nodup) ∧
    (∀ r, run mem (some t) (ins.map fun p => Op.insert k p.1 p.2) = .ok r →
      ∃ t' chain chain', r = some t' ∧
        t.map[hash mem k % n]? = some chain ∧ t'.map[hash mem k % n]? = some chain' ∧
        chain'.length ≤ chain.length + 1 ∧
        (∀ c ∈ t'.map, (c.map Node.key).Nodup)) ∧
    ((∀ p ∈ ins, p.2 ≠ none) →
      ∃ t', run mem (some t) (ins.map fun p => Op.insert k p.1 p.2) = .ok (some t')) := by
  have h := hr.wf hn
  refine ⟨h.chain_nodup, ?_, ?_⟩
  · intro r hrun
    obtain ⟨t', chain, chain', hr', hw', hc, hc', hlen, _⟩ :=
      WF.insert_many_length hn k ins t r h hrun
    refine ⟨t', chain, chain', hr', hc, hc', ?_, hw'.chain_nodup⟩
    split at hlen <;> omega
  · intro hall
    obtain ⟨r, hrun⟩ := WF.insert_many_returns hn k ins hall t h
    obtain ⟨t', _, _, hr', _⟩ := WF.insert_many_length hn k ins t r h hrun
    exact ⟨t', hr' ▸ hrun⟩

/-- C4 at a concrete input: one bucket holding "a" (address 3); "b" (address
4) is inserted three times. -/
theorem chain_keys_unique_witness :
    (∀ chain ∈ (⟨[[⟨3, 1⟩]], 1⟩ : HashMap).map, (chain.map Node.key).Nodup) ∧
    (∀ r, run mem_ex (some ⟨[[⟨3, 1⟩]], 1⟩)
        ([(5, some fun a b => a + b), (6, some fun _ b => b), (7, some fun a _ => a)].map
          fun p => Op.insert 4 p.1 p.2) = .ok r →
      ∃ t' chain chain', r = some t' ∧
        (⟨[[⟨3, 1⟩]], 1⟩ : HashMap).map[hash mem_ex 4 % 1]? = some chain ∧
        t'.map[hash mem_ex 4 % 1]? = some chain' ∧
        chain'.length ≤ chain.length + 1 ∧
        (∀ c ∈ t'.map, (c.map Node.key).Nodup)) ∧
    ((∀ p ∈ [((5 : Ptr), (some fun a b => a + b : Option (Ptr → Ptr → Ptr))),
        (6, some fun _ b => b), (7, some fun a _ => a)], p.2 ≠ none) →
      ∃ t', run mem_ex (some ⟨[[⟨3, 1⟩]], 1⟩)
        ([(5, some fun a b => a + b), (6, some fun _ b => b), (7, some fun a _ => a)].map
          fun p => Op.insert 4 p.1 p.2) = .ok (some t')) :=
  chain_keys_unique mem_ex 1 ⟨[[⟨3, 1⟩]], 1⟩ 4
    [(5, some fun a b => a + b), (6, some fun _ b => b), (7, some fun a _ => a)] (by decide)
    ⟨[Op.insert 3 1 none], by decide⟩

/-! ## Removal -/

theorem mem_keys_eraseP (k k' : Ptr) (chain : List Node) (hnd : (chain.map Node.key).Nodup) :
    k' ∈ (chain.eraseP (fun nd => decide (nd.key = k))).map Node.key ↔
      k' ≠ k ∧ k' ∈ chain.map Node.key := by
  induction chain with
  | nil => simp
  | cons temp next ih =>
    simp only [List.map_cons, List.nodup_cons] at hnd
    by_cases hk : temp.key = k
    · have : (temp :: next).eraseP (fun nd => decide (nd.key = k)) = next := by
        simp [List.eraseP_cons, hk]
      rw [this]
      constructor
      · intro hin
        refine ⟨?_, List.mem_cons_of_mem _ hin⟩
        intro e
        exact hnd.1 (hk ▸ e ▸ hin)
      · rintro ⟨hne, hin⟩
        simp only [List.map_cons, List.mem_cons] at hin
        rcases hin with e | hin
        · exact absurd (e.trans hk) hne
        · exact hin
    · have : (temp :: next).eraseP (fun nd => decide (nd.key = k))
          = temp :: next.eraseP (fun nd => decide (nd.key = k)) := by
        simp [List.eraseP_cons, hk]
      rw [this]
      simp only [List.map_cons, List.mem_cons, ih hnd.2]
      constructor
      · rintro (e | ⟨hne, hin⟩)
        · exact ⟨fun e' => hk (e.symm.trans e'), Or.inl e⟩
        · exact ⟨hne, Or.inr hin⟩
      · rintro ⟨hne, e | hin⟩
        · exact Or.inl e
        · exact Or.inr ⟨hne, hin⟩

theorem get_loop_eraseP_ne (k k' : Ptr) (chain : List Node) (hne : k' ≠ k) :
    get_loop k' (chain.eraseP (fun nd => decide (nd.key = k))) = get_loop k' chain := by
  induction chain with
  | nil => rfl
  | cons temp next ih =>
    by_cases hk : temp.key = k
    · have hk' : ¬ k = k' := fun e => hne e.symm
      simp [List.eraseP_cons, hk, get_loop, hk']
    · simp [List.eraseP_cons, hk, get_loop, ih]

/-- C5: on a reachable table in which key `k` is stored with value `v`,
`remove_data` with `k` returns; the calls it makes are the single call
`destroy_data v` when a destruction function is supplied and none when it is
`NULL`; afterwards `get_data` with `k` returns `NULL`.  The position of the
entry in its chain plays no part. -/
theorem remove_stored_then_get (mem : StrMem) (n : Nat) (t : HashMap) (k v : Ptr)
    (dd : Bool) (hn : 1 ≤ n) (hr : Reachable mem n t) (hs : (⟨k, v⟩ : Node) ∈ entries t) :
    ∃ t', remove_data mem (some t) k dd
        = .ok { hm := some t', events := if dd then [Event.destroy_data v] else [] } ∧
      get_data mem (some t') k = .ok (NULL, { hm := some t', events := [] }) := by
  have h := hr.wf hn
  have hk : k ∈ keys t := List.mem_map_of_mem Node.key hs
  obtain ⟨chain, hc, _, he, hw⟩ := h.remove_present hn k dd hk
  have hv : get_loop k chain = v :=
    get_loop_stored k v chain (h.nodup _ chain hc) ((h.mem_entries_iff hc).mp hs)
  rw [hv] at he
  refine ⟨_, he, ?_⟩
  have hc' : (t.map.set (hash mem k % t.key_space)
      (chain.eraseP (fun nd => decide (nd.key = k))))[hash mem k % t.key_space]?
      = some (chain.eraseP (fun nd => decide (nd.key = k))) :=
    getElem?_set_self_of_lt _ _ _ (h.bucket_lt hn k)
  rw [get_data_eq mem ⟨t.map.set (hash mem k % t.key_space)
      (chain.eraseP (fun nd => decide (nd.key = k))), t.key_space⟩ k _ (h.key_space_ne hn) hc']
  rw [get_loop_absent]
  rw [mem_keys_eraseP k k chain (h.nodup _ chain hc)]
  exact fun e => e.1 rfl

/-- C5 at a concrete input: one bucket with the chain "b" (address 4, value 2),
"a" (address 3, value 1); the entry for "a", which is not the head, is
removed with a destruction function. -/
theorem remove_stored_then_get_witness :
    ∃ t', remove_data mem_ex (some ⟨[[⟨4, 2⟩, ⟨3, 1⟩]], 1⟩) 3 true
        = .ok { hm := some t', events := if true then [Event.destroy_data 1] else [] } ∧
      get_data mem_ex (some t') 3 = .ok (NULL, { hm := some t', events := [] }) :=
  remove_stored_then_get mem_ex 1 ⟨[[⟨4, 2⟩, ⟨3, 1⟩]], 1⟩ 3 1 true (by decide)
    ⟨[Op.insert 3 1 none, Op.insert 4 2 none], by decide⟩ (by decide)

/-- C6: on a reachable table, `remove_data` with a key that is not stored
returns the table as it was, every chain included, and makes no call; hence
`get_data` answers as before for every key, and removing the key once more
again changes nothing. -/
theorem remove_absent_unchanged (mem : StrMem) (n : Nat) (t : HashMap) (k : Ptr) (dd : Bool)
    (hn : 1 ≤ n) (hr : Reachable mem n t) (hk : k ∉ keys t) :
    remove_data mem (some t) k dd = .ok { hm := some t, events := [] } ∧
    (∀ out, remove_data mem (some t) k dd = .ok out →
      out.events = [] ∧ out.hm = some t ∧
      (∀ k', get_data mem out.hm k' = get_data mem (some t) k') ∧
      remove_data mem out.hm k dd = .ok { hm := some t, events := [] }) := by
  have he := (hr.wf hn).remove_absent hn k dd hk
  refine ⟨he, ?_⟩
  intro out ho
  rw [he] at ho
  cases ho
  exact ⟨rfl, rfl, fun _ => rfl, he⟩

/-- C6 at a concrete input: one bucket holding "a" (address 3) and "b"
(address 4); the key at address 1 hashes to the same bucket and is absent. -/
theorem remove_absent_unchanged_witness :
    remove_data mem_ex (some ⟨[[⟨4, 2⟩, ⟨3, 1⟩]], 1⟩) 1 true
      = .ok { hm := some ⟨[[⟨4, 2⟩, ⟨3, 1⟩]], 1⟩, events := [] } ∧
    (∀ out, remove_data mem_ex (some ⟨[[⟨4, 2⟩, ⟨3, 1⟩]], 1⟩) 1 true = .ok out →
      out.events = [] ∧ out.hm = some ⟨[[⟨4, 2⟩, ⟨3, 1⟩]], 1⟩ ∧
      (∀ k', get_data mem_ex out.hm k' = get_data mem_ex (some ⟨[[⟨4, 2⟩, ⟨3, 1⟩]], 1⟩) k') ∧
      remove_data mem_ex out.hm 1 true
        = .ok { hm := some ⟨[[⟨4, 2⟩, ⟨3, 1⟩]], 1⟩, events := [] }) :=
  remove_absent_unchanged mem_ex 1 ⟨[[⟨4, 2⟩, ⟨3, 1⟩]], 1⟩ 1 true (by decide)
    ⟨[Op.insert 3 1 none, Op.insert 4 2 none], by decide⟩ (by decide)

/-! ## Which keys are stored -/

theorem WF.mem_keys_set {mem : StrMem} {n : Nat} {t : HashMap} (h : WF mem n t) (hn : 1 ≤ n)
    (k k' : Ptr) (c : List Node)
    (hw : WF mem n ⟨t.map.set (hash mem k % t.key_space) c, t.key_space⟩) :
    k' ∈ keys ⟨t.map.set (hash mem k % t.key_space) c, t.key_space⟩ ↔
      if hash mem k' % t.key_space = hash mem k % t.key_space then k' ∈ c.map Node.key
      else k' ∈ keys t := by
  obtain ⟨chain', hc'⟩ := h.chain_at hn k'
  split
  · rename_i hb
    have hcc : (⟨t.map.set (hash mem k % t.key_space) c, t.key_space⟩ : HashMap).map[
        hash mem k' % (⟨t.map.set (hash mem k % t.key_space) c, t.key_space⟩ :
          HashMap).key_space]? = some c := by
      simp only [hb]
      exact getElem?_set_self_of_lt _ _ _ (h.bucket_lt hn k)
    exact hw.mem_keys_iff hcc
  · rename_i hb
    have hcc : (⟨t.map.set (hash mem k % t.key_space) c, t.key_space⟩ : HashMap).map[
        hash mem k' % (⟨t.map.set (hash mem k % t.key_space) c, t.key_space⟩ :
          HashMap).key_space]? = some chain' := by
      simp only
      rw [getElem?_set_of_ne _ _ _ _ (fun e => hb e.symm)]
      exact hc'
    rw [hw.mem_keys_iff hcc, h.mem_keys_iff hc']

/-- The stored keys after one call that returns. -/
theorem WF.keys_step {mem : StrMem} {n : Nat} {t : HashMap} (h : WF mem n t) (hn : 1 ≤ n)
    (op : Op) (out : Out) (hs : step mem (some t) op = .ok out) (k' : Ptr) :
    ∃ t1, out.hm = some t1 ∧ WF mem n t1 ∧
      decide (k' ∈ keys t1) = stored_after k' (decide (k' ∈ keys t)) [op] := by
  cases op with
  | insert k v rc =>
    simp only [step] at hs
    by_cases hk : k ∈ keys t
    · cases rc with
      | none =>
        obtain ⟨chain, hc⟩ := h.chain_at hn k
        rw [insert_data_eq mem t k v none chain (h.key_space_ne hn) hc,
          insert_loop_null k v chain ((h.mem_keys_iff hc).mp hk)] at hs
        cases hs
      | some f =>
        obtain ⟨chain, c, hc, h2, _, _, he, hw⟩ := h.insert_present hn k v f hk
        rw [he] at hs
        cases hs
        refine ⟨_, rfl, hw, ?_⟩
        simp only [stored_after]
        have hiff := h.mem_keys_set hn k k' c hw
        by_cases hb : hash mem k' % t.key_space = hash mem k % t.key_space
        · rw [if_pos hb, h2] at hiff
          rw [← hb] at hc
          rw [← h.mem_keys_iff hc] at hiff
          by_cases hkk : k = k'
          · subst hkk; simp [hiff, hk]
          · simp [hiff, hkk]
        · rw [if_neg hb] at hiff
          have hkk : k ≠ k' := fun e => hb (e ▸ rfl)
          simp [hiff, hkk]
    · obtain ⟨chain, hc, _, he, hw⟩ := h.insert_absent hn k v rc hk
      rw [he] at hs
      cases hs
      refine ⟨_, rfl, hw, ?_⟩
      simp only [stored_after]
      have hiff := h.mem_keys_set hn k k' (⟨k, v⟩ :: chain) hw
      by_cases hb : hash mem k' % t.key_space = hash mem k % t.key_space
      · rw [if_pos hb] at hiff
        rw [← hb] at hc
        have hm := h.mem_keys_iff (k := k') hc
        by_cases hkk : k = k'
        · subst hkk; simp [hiff]
        · have hkk' : ¬ k' = k := fun e => hkk e.symm
          simp only [List.map_cons, List.mem_cons, hkk', false_or] at hiff
          simp [hiff, hkk, hm]
      · rw [if_neg hb] at hiff
        have hkk : k ≠ k' := fun e => hb (e ▸ rfl)
        simp [hiff, hkk]
  | remove k dd =>
    simp only [step] at hs
    by_cases hk : k ∈ keys t
    · obtain ⟨chain, hc, _, he, hw⟩ := h.remove_present hn k dd hk
      rw [he] at hs
      cases hs
      refine ⟨_, rfl, hw, ?_⟩
      simp only [stored_after]
      have hiff := h.mem_keys_set hn k k' (chain.eraseP (fun nd => decide (nd.key = k))) hw
      by_cases hb : hash mem k' % t.key_space = hash mem k % t.key_space
      · rw [if_pos hb, mem_keys_eraseP k k' chain (h.nodup _ chain hc)] at hiff
        rw [← hb] at hc
        rw [← h.mem_keys_iff hc] at hiff
        by_cases hkk : k = k'
        · subst hkk; simp [hiff]
        · have hkk' : k' ≠ k := fun e => hkk e.symm
          simp [hiff, hkk, hkk']
      · rw [if_neg hb] at hiff
        have hkk : k ≠ k' := fun e => hb (e ▸ rfl)
        simp [hiff, hkk]
    · rw [h.remove_absent hn k dd hk] at hs
      cases hs
      refine ⟨_, rfl, h, ?_⟩
      simp only [stored_after]
      by_cases hkk : k = k'
      · subst hkk; simp [hk]
      · simp [hkk]

theorem stored_after_cons (k : Ptr) (b : Bool) (op : Op) (ops : List Op) :
    stored_after k b (op :: ops) = stored_after k (stored_after k b [op]) ops := by
  cases op <;> rfl

/-- The stored keys after a sequence of calls that return. -/
theorem WF.keys_run {mem : StrMem} {n : Nat} (hn : 1 ≤ n) (k : Ptr) (ops : List Op) :
    ∀ (t0 t : HashMap), WF mem n t0 → run mem (some t0) ops = .ok (some t) →
      decide (k ∈ keys t) = stored_after k (decide (k ∈ keys t0)) ops := by
  induction ops with
  | nil =>
    intro t0 t _ hr
    simp only [run] at hr
    cases hr
    rfl
  | cons op ops ih =>
    intro t0 t h hr
    simp only [run] at hr
    cases hst : step mem (some t0) op with
    | ok out =>
      rw [hst] at hr
      obtain ⟨t1, h1, hw1, hd⟩ := h.keys_step hn op out hst k
      simp only [h1] at hr
      rw [stored_after_cons, ← hd]
      exact ih t1 t hw1 hr
    | fault e => rw [hst] at hr; cases hr
    | out_of_fuel => rw [hst] at hr; cases hr

theorem entries_create (n : Nat) : entries (create_hashmap n) = [] := by
  unfold entries create_hashmap
  induction n with
  | zero => rfl
  | succ m ih => simp [List.replicate_succ]

/-- C7: `get_data` returns `NULL` for every key that is not stored.  The table
made by `create_hashmap n`, `1 ≤ n`, has no entries and the lookup of every key
in it returns `NULL`; in a table reached by a sequence of calls of
`insert_data` and `remove_data`, the lookup returns `NULL` for every key that
the sequence does not leave stored (never inserted, or not inserted again
after its last removal), which are exactly the keys without an entry in the
table.  `get_data` hands back the table it was given, whatever the handle. -/
theorem get_absent_is_null (mem : StrMem) (n : Nat) (hn : 1 ≤ n) :
    entries (create_hashmap n) = [] ∧
    (∀ k, get_data mem (some (create_hashmap n)) k
      = .ok (NULL, { hm := some (create_hashmap n), events := [] })) ∧
    (∀ (ops : List Op) (t : HashMap) (k : Ptr),
      run mem (some (create_hashmap n)) ops = .ok (some t) →
      ((stored_after k false ops = false ↔ k ∉ keys t) ∧
       (stored_after k false ops = false →
        get_data mem (some t) k = .ok (NULL, { hm := some t, events := [] })))) ∧
    (∀ (hm : Option HashMap) (k p : Ptr) (out : Out),
      get_data mem hm k = .ok (p, out) → out.hm = hm) := by
  have hget : ∀ (t : HashMap) (k : Ptr), WF mem n t → k ∉ keys t →
      get_data mem (some t) k = .ok (NULL, { hm := some t, events := [] }) := by
    intro t k h hk
    obtain ⟨chain, hc⟩ := h.chain_at hn k
    rw [get_data_eq mem t k chain (h.key_space_ne hn) hc,
      get_loop_absent k chain (fun e => hk ((h.mem_keys_iff hc).mpr e))]
  have hkeys0 : ∀ k, k ∉ keys (create_hashmap n) := by
    intro k
    simp [keys, entries_create]
  refine ⟨entries_create n, fun k => hget _ k (WF_create mem n) (hkeys0 k), ?_, ?_⟩
  · intro ops t k hrun
    have hd := WF.keys_run hn k ops (create_hashmap n) t (WF_create mem n) hrun
    have h0 : decide (k ∈ keys (create_hashmap n)) = false := by simp [hkeys0 k]
    rw [h0] at hd
    have hiff : stored_after k false ops = false ↔ k ∉ keys t := by
      rw [← hd]; simp
    exact ⟨hiff, fun hs => hget t k (Reachable.wf hn ⟨ops, hrun⟩) (hiff.mp hs)⟩
  · intro hm k p out hg
    cases hm with
    | none =>
      simp only [get_data] at hg
      cases hg
      rfl
    | some t =>
      simp only [get_data] at hg
      split at hg
      · cases hg
      · split at hg
        · cases hg
        · cases hg
          rfl

/-- C7 at a concrete input: four buckets, "x" (address 1) inserted and then
removed; its lookup returns `NULL`. -/
theorem get_absent_is_null_witness :
    (stored_after 1 false [Op.insert 1 10 none, Op.remove 1 false] = false ↔
      1 ∉ keys ⟨[[], [], [], []], 4⟩) ∧
    (stored_after 1 false [Op.insert 1 10 none, Op.remove 1 false] = false →
      get_data mem_ex (some ⟨[[], [], [], []], 4⟩) 1
        = .ok (NULL, { hm := some ⟨[[], [], [], []], 4⟩, events := [] })) :=
  (get_absent_is_null mem_ex 4 (by decide)).2.2.1
    [Op.insert 1 10 none, Op.remove 1 false] ⟨[[], [], [], []], 4⟩ 1 (by decide)

/-! ## Insertion leaves the other keys alone -/

theorem WF.get_data_set {mem : StrMem} {n : Nat} {t : HashMap} (h : WF mem n t) (hn : 1 ≤ n)
    (k k' : Ptr) (chain c : List Node) (hc : t.map[hash mem k % t.key_space]? = some chain)
    (hg : get_loop k' c = get_loop k' chain) :
    ∃ p, get_data mem (some t) k' = .ok (p, { hm := some t, events := [] }) ∧
      get_data mem (some ⟨t.map.set (hash mem k % t.key_space) c, t.key_space⟩) k'
        = .ok (p, { hm := some ⟨t.map.set (hash mem k % t.key_space) c, t.key_space⟩,
                    events := [] }) := by
  obtain ⟨chain', hc'⟩ := h.chain_at hn k'
  refine ⟨get_loop k' chain', get_data_eq mem t k' chain' (h.key_space_ne hn) hc', ?_⟩
  by_cases hb : hash mem k' % t.key_space = hash mem k % t.key_space
  · have hcc : (t.map.set (hash mem k % t.key_space) c)[hash mem k' % t.key_space]? = some c := by
      rw [hb]; exact getElem?_set_self_of_lt _ _ _ (h.bucket_lt hn k)
    rw [get_data_eq mem ⟨t.map.set (hash mem k % t.key_space) c, t.key_space⟩ k' c
      (h.key_space_ne hn) hcc, hg]
    rw [hb, hc] at hc'
    cases hc'
    rfl
  · have hcc : (t.map.set (hash mem k % t.key_space) c)[hash mem k' % t.key_space]?
        = some chain' := by
      rw [getElem?_set_of_ne _ _ _ _ (fun e => hb e.symm)]; exact hc'
    rw [get_data_eq mem ⟨t.map.set (hash mem k % t.key_space) c, t.key_space⟩ k' chain'
      (h.key_space_ne hn) hcc]

theorem entries_subset_set_cons (t : HashMap) (b : Nat) (nd0 : Node) (chain : List Node)
    (hc : t.map[b]? = some chain) :
    ∀ nd ∈ entries t, nd ∈ entries ⟨t.map.set b (nd0 :: chain), t.key_space⟩ := by
  intro nd hnd
  rw [mem_entries] at hnd ⊢
  obtain ⟨i, ci, hi, hmem⟩ := hnd
  by_cases hb : b = i
  · subst hb
    rw [hc] at hi
    cases hi
    have hlt : b < t.map.length := by
      by_contra hge
      rw [List.getElem?_eq_none (Nat.le_of_not_lt hge)] at hc
      cases hc
    exact ⟨b, nd0 :: chain, getElem?_set_self_of_lt _ _ _ hlt, List.mem_cons_of_mem _ hmem⟩
  · refine ⟨i, ci, ?_, hmem⟩
    simp only
    rw [getElem?_set_of_ne _ _ _ _ hb]
    exact hi

/-- C10: on a reachable table, `insert_data` with key `k`, any value and any
policy returns, and for every key `k'` other than `k` the lookup of `k'`
gives the same pointer before and after, whether or not the two keys share a
bucket; every bucket other than the one of `k` keeps its chain.  When `k` was
not stored the policy is not called and every entry that was in the table is
still in it. -/
theorem insert_keeps_other_keys (mem : StrMem) (n : Nat) (t : HashMap) (k v k' : Ptr)
    (f : Ptr → Ptr → Ptr) (hn : 1 ≤ n) (hr : Reachable mem n t) (hne : k' ≠ k) :
    ∃ t' ev, insert_data mem (some t) k v (some f) = .ok { hm := some t', events := ev } ∧
      (∃ p, get_data mem (some t) k' = .ok (p, { hm := some t, events := [] }) ∧
        get_data mem (some t') k' = .ok (p, { hm := some t', events := [] })) ∧
      (∀ i, i ≠ hash mem k % n → t'.map[i]? = t.map[i]?) ∧
      (k ∉ keys t → ev = [] ∧ ∀ nd ∈ entries t, nd ∈ entries t') := by
  have h := hr.wf hn
  have hks := h.key_space_eq
  by_cases hk : k ∈ keys t
  · obtain ⟨chain, c, hc, _, _, h4, he, _⟩ := h.insert_present hn k v f hk
    refine ⟨_, _, he, h.get_data_set hn k k' chain c hc (h4 k' hne), ?_, fun e => absurd hk e⟩
    intro i hi
    simp only
    rw [getElem?_set_of_ne _ _ _ _ (fun e => hi (by rw [← e, hks]))]
  · obtain ⟨chain, hc, _, he, _⟩ := h.insert_absent hn k v (some f) hk
    have hg : get_loop k' (⟨k, v⟩ :: chain) = get_loop k' chain := by
      have : ¬ k = k' := fun e => hne e.symm
      simp [get_loop, this]
    refine ⟨_, _, he, h.get_data_set hn k k' chain _ hc hg, ?_,
      fun _ => ⟨rfl, entries_subset_set_cons t _ ⟨k, v⟩ chain hc⟩⟩
    intro i hi
    simp only
    rw [getElem?_set_of_ne _ _ _ _ (fun e => hi (by rw [← e, hks]))]

/-- C10 at the input of the scenario: one bucket, "a" (address 3) stored with
1, then "b" (address 4) inserted with 2 under the policy returning the new
value; afterwards the lookups return 1 for "a" and 2 for "b". -/
theorem insert_keeps_other_keys_witness :
    (∃ t' ev, insert_data mem_ex (some ⟨[[⟨3, 1⟩]], 1⟩) 4 2 (some fun _ new_data => new_data)
        = .ok { hm := some t', events := ev } ∧
      (∃ p, get_data mem_ex (some ⟨[[⟨3, 1⟩]], 1⟩) 3
          = .ok (p, { hm := some ⟨[[⟨3, 1⟩]], 1⟩, events := [] }) ∧
        get_data mem_ex (some t') 3 = .ok (p, { hm := some t', events := [] })) ∧
      (∀ i, i ≠ hash mem_ex 4 % 1 → t'.map[i]? = (⟨[[⟨3, 1⟩]], 1⟩ : HashMap).map[i]?) ∧
      (4 ∉ keys ⟨[[⟨3, 1⟩]], 1⟩ → ev = [] ∧
        ∀ nd ∈ entries ⟨[[⟨3, 1⟩]], 1⟩, nd ∈ entries t')) ∧
    run mem_ex (some (create_hashmap 1))
        [Op.insert 3 1 (some fun _ new_data => new_data),
         Op.insert 4 2 (some fun _ new_data => new_data)]
      = .ok (some ⟨[[⟨4, 2⟩, ⟨3, 1⟩]], 1⟩) ∧
    get_data mem_ex (some ⟨[[⟨4, 2⟩, ⟨3, 1⟩]], 1⟩) 3
      = .ok (1, { hm := some ⟨[[⟨4, 2⟩, ⟨3, 1⟩]], 1⟩, events := [] }) ∧
    get_data mem_ex (some ⟨[[⟨4, 2⟩, ⟨3, 1⟩]], 1⟩) 4
      = .ok (2, { hm := some ⟨[[⟨4, 2⟩, ⟨3, 1⟩]], 1⟩, events := [] }) :=
  ⟨insert_keeps_other_keys mem_ex 1 ⟨[[⟨3, 1⟩]], 1⟩ 4 2 3 (fun _ new_data => new_data)
      (by decide) ⟨[Op.insert 3 1 none], by decide⟩ (by decide),
    by decide, by decide, by decide⟩

/-! ## The bucket loops of `iterate` and `delete_hashmap` -/

theorem UINT_RANGE_pos : 0 < UINT_RANGE := by
  unfold UINT_RANGE; exact Nat.two_pow_pos 32

theorem iterate_chain_true (chain : List Node) :
    iterate_chain true chain = .ok (chain.map fun nd => Event.callback nd.key nd.data) := by
  induction chain with
  | nil => rfl
  | cons temp next ih => simp [iterate_chain, ih]

/-- With `2 ^ 32` buckets or more the counter of the `for` loop of `iterate`
wraps to `0` before it reaches `key_space`: the loop is never left. -/
theorem iterate_loop_diverges (t : HashMap) (hlen : t.map.length = t.key_space)
    (hbig : UINT_RANGE ≤ t.key_space) :
    ∀ (fuel i : Nat) (acc : List Event), i < UINT_RANGE →
      iterate_loop t true fuel i acc = .out_of_fuel := by
  intro fuel
  induction fuel with
  | zero => intro i acc _; rfl
  | succ fuel ih =>
    intro i acc hi
    have hlt : i < t.key_space := Nat.lt_of_lt_of_le hi hbig
    have hlt' : i < t.map.length := hlen ▸ hlt
    have hget : t.map[i]? = some t.map[i] := List.getElem?_eq_getElem hlt'
    simp only [iterate_loop, hlt, if_true, hget, iterate_chain_true]
    exact ih _ _ (Nat.mod_lt _ UINT_RANGE_pos)

/-- With fewer than `2 ^ 32` buckets the `for` loop of `iterate` started at
bucket `i` is left after `key_space - i` rounds, having visited the chains of
the buckets from `i` on in order. -/
theorem iterate_loop_eq (t : HashMap) (hlen : t.map.length = t.key_space)
    (hsmall : t.key_space < UINT_RANGE) :
    ∀ (fuel i : Nat) (acc : List Event), i ≤ t.key_space → t.key_space - i < fuel →
      iterate_loop t true fuel i acc =
        .ok (acc ++ (t.map.drop i).flatten.map fun nd => Event.callback nd.key nd.data) := by
  intro fuel
  induction fuel with
  | zero => intro i acc _ hf; omega
  | succ fuel ih =>
    intro i acc hi hf
    by_cases hlt : i < t.key_space
    · have hlt' : i < t.map.length := hlen ▸ hlt
      have hget : t.map[i]? = some t.map[i] := List.getElem?_eq_getElem hlt'
      have hmod : (i + 1) % UINT_RANGE = i + 1 := Nat.mod_eq_of_lt (by omega)
      simp only [iterate_loop, hlt, if_true, hget, iterate_chain_true, hmod]
      rw [ih (i + 1) _ (by omega) (by omega)]
      rw [List.drop_eq_getElem_cons hlt', List.flatten_cons, List.map_append, List.append_assoc]
    · have hie : i = t.key_space := by omega
      have hd : t.map.drop i = [] := List.drop_eq_nil_of_le (by omega)
      simp [iterate_loop, hlt, hd]

theorem delete_chain_append (dd : Bool) (a b : List Node) :
    delete_chain dd (a ++ b) = delete_chain dd a ++ delete_chain dd b := by
  induction a with
  | nil => rfl
  | cons temp next ih => cases dd <;> simp [delete_chain, ih]

theorem delete_chain_eq (dd : Bool) (chain : List Node) :
    delete_chain dd chain =
      if dd then chain.map (fun nd => Event.destroy_data nd.data) else [] := by
  induction chain with
  | nil => cases dd <;> rfl
  | cons temp next ih => cases dd <;> simp_all [delete_chain]

/-- With `2 ^ 32` buckets or more the `for` loop of `delete_hashmap` is never
left, so the two calls of `free` after it are not reached. -/
theorem delete_loop_diverges (key_space : Nat) (dd : Bool) (hbig : UINT_RANGE ≤ key_space) :
    ∀ (fuel i : Nat) (map : List (List Node)) (acc : List Event),
      map.length = key_space → i < UINT_RANGE →
      delete_loop key_space dd fuel i map acc = .out_of_fuel := by
  intro fuel
  induction fuel with
  | zero => intro i map acc _ _; rfl
  | succ fuel ih =>
    intro i map acc hlen hi
    have hlt : i < key_space := Nat.lt_of_lt_of_le hi hbig
    have hlt' : i < map.length := hlen ▸ hlt
    have hget : map[i]? = some map[i] := List.getElem?_eq_getElem hlt'
    simp only [delete_loop, hlt, if_true, hget]
    cases map[i] with
    | nil => exact ih _ _ _ hlen (Nat.mod_lt _ UINT_RANGE_pos)
    | cons temp next =>
      exact ih _ _ _ (by simp [hlen]) (Nat.mod_lt _ UINT_RANGE_pos)


theorem take_succ_cleared {map map' : List (List Node)} {n i : Nat} (hl : map.length = n)
    (hl' : map'.length = n) (hi : i < n) (hself : map'[i]? = some [])
    (hother : ∀ j, j < i → map'[j]? = map[j]?) :
    map'.take (i + 1) ++ List.replicate (n - (i + 1)) [] =
      map.take i ++ List.replicate (n - i) [] := by
  apply List.ext_getElem?
  intro j
  have hlen1 : (map'.take (i + 1)).length = i + 1 := by simp [hl']; omega
  have hlen2 : (map.take i).length = i := by simp [hl]; omega
  rcases Nat.lt_trichotomy j i with hj | hj | hj
  · rw [List.getElem?_append_left (by omega), List.getElem?_append_left (by omega),
      List.getElem?_take_of_lt (by omega), List.getElem?_take_of_lt hj, hother j hj]
  · subst hj
    rw [List.getElem?_append_left (by omega), List.getElem?_take_of_lt (by omega), hself,
      List.getElem?_append_right (by omega), hlen2, List.getElem?_replicate]
    simp; omega
  · rw [List.getElem?_append_right (by omega), List.getElem?_append_right (by omega),
      hlen1, hlen2, List.getElem?_replicate, List.getElem?_replicate]
    by_cases h : j < n
    · rw [if_pos (by omega), if_pos (by omega)]
    · rw [if_neg (by omega), if_neg (by omega)]

/-- With fewer than `2 ^ 32` buckets the `for` loop of `delete_hashmap` started
at bucket `i` is left after `key_space - i` rounds: the buckets from `i` on are
empty and the destruction function, when supplied, has been called on the data
of their entries in order. -/
theorem delete_loop_eq (key_space : Nat) (dd : Bool) (hsmall : key_space < UINT_RANGE) :
    ∀ (fuel i : Nat) (map : List (List Node)) (acc : List Event),
      map.length = key_space → i ≤ key_space → key_space - i < fuel →
      delete_loop key_space dd fuel i map acc =
        .ok (map.take i ++ List.replicate (key_space - i) [],
             acc ++ delete_chain dd (map.drop i).flatten) := by
  intro fuel
  induction fuel with
  | zero => intro i map acc _ _ hf; omega
  | succ fuel ih =>
    intro i map acc hlen hi hf
    by_cases hlt : i < key_space
    · have hlt' : i < map.length := hlen ▸ hlt
      have hget : map[i]? = some map[i] := List.getElem?_eq_getElem hlt'
      have hmod : (i + 1) % UINT_RANGE = i + 1 := Nat.mod_eq_of_lt (by omega)
      have hdrop := List.drop_eq_getElem_cons hlt'
      simp only [delete_loop, hlt, if_true, hget, hmod]
      cases hch : map[i] with
      | nil =>
        rw [hch] at hget hdrop
        simp only
        rw [ih (i + 1) map acc hlen (by omega) (by omega),
          take_succ_cleared hlen hlen hlt hget (fun _ _ => rfl), hdrop]
        simp
      | cons temp next =>
        rw [hch] at hdrop
        simp only
        rw [ih (i + 1) _ _ (by simp [hlen]) (by omega) (by omega),
          take_succ_cleared hlen (by simp [hlen]) hlt (getElem?_set_self_of_lt _ _ _ hlt')
            (fun j hj => getElem?_set_of_ne _ _ _ _ (by omega)),
          List.drop_set_of_lt _ _ (by omega), hdrop, List.flatten_cons, delete_chain_append,
          List.append_assoc]
    · have hie : i = key_space := by omega
      have hd : map.drop i = [] := List.drop_eq_nil_of_le (by omega)
      have ht : map.take i = map := List.take_of_length_le (by omega)
      have hsub : key_space - i = 0 := by omega
      simp only [delete_loop, hlt, if_false, hd, ht, hsub, List.replicate_zero, List.append_nil,
        List.flatten_nil, delete_chain]


theorem hash_loop_lt (s : List Int) :
    ∀ index : Nat, index < UINT_RANGE → hash_loop s index < UINT_RANGE := by
  induction s with
  | nil => intro index h; exact h
  | cons c rest ih =>
    intro index h
    simp only [hash_loop]
    split
    · exact h
    · apply ih
      have hpos : (0 : Int) < (UINT_RANGE : Int) := by exact_mod_cast UINT_RANGE_pos
      have h1 := Int.emod_lt_of_pos ((index : Int) + c) hpos
      have h0 := Int.emod_nonneg ((index : Int) + c) (ne_of_gt hpos)
      omega

/-- The value of `hash` is an `unsigned int`; hence so is its remainder modulo
`key_space`, and storing the remainder in `unsigned int bucket` keeps it. -/
theorem bucket_fits (mem : StrMem) (key : Ptr) (key_space : Nat) :
    hash mem key < UINT_RANGE ∧
      (hash mem key % key_space) % UINT_RANGE = hash mem key % key_space := by
  have h : hash mem key < UINT_RANGE := hash_loop_lt _ 0 UINT_RANGE_pos
  exact ⟨h, Nat.mod_eq_of_lt (Nat.lt_of_le_of_lt (Nat.mod_le _ _) h)⟩

/-- No key has entries in two chains, and no chain holds a key twice. -/
theorem WF.keys_nodup {mem : StrMem} {n : Nat} {t : HashMap} (h : WF mem n t) :
    (keys t).Nodup := by
  unfold keys entries
  rw [List.map_flatten, List.nodup_flatten]
  constructor
  · intro l hl
    obtain ⟨chain, hc, rfl⟩ := List.mem_map.mp hl
    exact h.chain_nodup chain hc
  · rw [List.pairwise_iff_getElem]
    intro i j hi hj hij
    simp only [List.getElem_map]
    intro k hki hkj
    simp only [List.length_map] at hi hj
    obtain ⟨ndi, hndi, hei⟩ := List.mem_map.mp hki
    obtain ⟨ndj, hndj, hej⟩ := List.mem_map.mp hkj
    have h1 := h.placed i _ (List.getElem?_eq_getElem hi) ndi hndi
    have h2 := h.placed j _ (List.getElem?_eq_getElem hj) ndj hndj
    rw [hei] at h1
    rw [hej] at h2
    omega

/-- In a table with fewer than `2 ^ 32` buckets, reached from
`create_hashmap n`, `iterate` returns once the fuel exceeds `n`; it calls
`callback` on the entries of the table, bucket by bucket and chain by chain,
once each, and hands back the table as it was.  No key is visited twice, and
the value passed with a key is the one `get_data` returns for it. -/
theorem iterate_visits_entries (mem : StrMem) (n fuel : Nat) (t : HashMap) (hn : 1 ≤ n)
    (hsmall : n < UINT_RANGE) (hr : Reachable mem n t) (hf : n < fuel) :
    iterate fuel (some t) true
      = .ok { hm := some t,
              events := (entries t).map fun nd => Event.callback nd.key nd.data } ∧
    ((entries t).map Node.key).Nodup ∧
    (∀ nd ∈ entries t,
      get_data mem (some t) nd.key = .ok (nd.data, { hm := some t, events := [] })) := by
  have h := hr.wf hn
  refine ⟨?_, h.keys_nodup, ?_⟩
  · have hl := iterate_loop_eq t (h.length_eq.trans h.key_space_eq.symm)
      (h.key_space_eq ▸ hsmall) fuel 0 [] (Nat.zero_le _) (by rw [h.key_space_eq]; omega)
    simp only [iterate, hl, List.drop_zero, List.nil_append, entries]
  · intro nd hnd
    obtain ⟨chain, hc⟩ := h.chain_at hn nd.key
    rw [get_data_eq mem t nd.key chain (h.key_space_ne hn) hc,
      get_loop_stored nd.key nd.data chain (h.nodup _ chain hc) ((h.mem_entries_iff hc).mp hnd)]

/-- In a table with fewer than `2 ^ 32` buckets, reached from
`create_hashmap n`, `delete_hashmap` returns once the fuel exceeds `n`; every
chain is empty afterwards, and the calls made are one `destroy_data` per entry
when a destruction function is supplied and none when it is `NULL`. -/
theorem delete_hashmap_destroys_entries (mem : StrMem) (n fuel : Nat) (t : HashMap)
    (dd : Bool) (hn : 1 ≤ n) (hsmall : n < UINT_RANGE) (hr : Reachable mem n t)
    (hf : n < fuel) :
    delete_hashmap fuel (some t) dd
      = .ok { hm := some ⟨List.replicate n [], n⟩,
              events := if dd then (entries t).map (fun nd => Event.destroy_data nd.data)
                        else [] } := by
  have h := hr.wf hn
  have hl := delete_loop_eq t.key_space dd (h.key_space_eq ▸ hsmall) fuel 0 t.map []
    (h.length_eq.trans h.key_space_eq.symm) (Nat.zero_le _) (by rw [h.key_space_eq]; omega)
  simp only [delete_hashmap, hl]
  simp only [List.take_zero, List.nil_append, List.drop_zero, Nat.sub_zero, delete_chain_eq,
    h.key_space_eq, entries]

/-- With `2 ^ 32` buckets or more, `iterate` on the table made by one
insertion into the fresh table does not return. -/
theorem iterate_diverges_of_large (mem : StrMem) (n : Nat) (k v : Ptr)
    (hbig : UINT_RANGE ≤ n) :
    ∃ t, run mem (some (create_hashmap n)) [Op.insert k v none] = .ok (some t) ∧
      (⟨k, v⟩ : Node) ∈ entries t ∧
      ∀ fuel, iterate fuel (some t) true = .out_of_fuel := by
  have hn : 1 ≤ n := Nat.le_trans UINT_RANGE_pos hbig
  have h0 := WF_create mem n
  have hk : k ∉ keys (create_hashmap n) := by
    unfold keys; rw [entries_create]; exact List.not_mem_nil _
  obtain ⟨chain, hc, _, he, hw⟩ := h0.insert_absent hn k v none hk
  refine ⟨⟨(create_hashmap n).map.set (hash mem k % (create_hashmap n).key_space)
      (⟨k, v⟩ :: chain), (create_hashmap n).key_space⟩, ?_, ?_, ?_⟩
  · simp only [run, step, he]
  · rw [mem_entries]
    exact ⟨_, _, getElem?_set_self_of_lt _ _ _ (h0.bucket_lt hn k), List.mem_cons_self _ _⟩
  · intro fuel
    have hd := iterate_loop_diverges _ (hw.length_eq.trans hw.key_space_eq.symm)
      (Nat.le_trans hbig (Nat.le_of_eq hw.key_space_eq.symm)) fuel 0 [] UINT_RANGE_pos
    simp only [iterate, hd]

/-- With `2 ^ 32` buckets or more, `delete_hashmap` on the fresh table does not
return. -/
theorem delete_hashmap_diverges_of_large (n : Nat) (hbig : UINT_RANGE ≤ n) :
    entries (create_hashmap n) = [] ∧
    ∀ (fuel : Nat) (dd : Bool),
      delete_hashmap fuel (some (create_hashmap n)) dd = .out_of_fuel := by
  refine ⟨entries_create _, ?_⟩
  intro fuel dd
  have h0 := WF_create (fun _ => []) n
  have hd := delete_loop_diverges (create_hashmap n).key_space dd
    (Nat.le_trans hbig (Nat.le_of_eq h0.key_space_eq.symm)) fuel 0 (create_hashmap n).map []
    (h0.length_eq.trans h0.key_space_eq.symm) UINT_RANGE_pos
  simp only [delete_hashmap, hd]

/-- C8, the code differs for `2 ^ 32` buckets or more: in the table with
`2 ^ 32` buckets into which "x" (address 1) has been inserted with value 10,
`iterate` does not return, whatever the fuel: the `unsigned int` counter of its
`for` loop wraps to `0` and never reaches the `size_t` bound `key_space`. -/
theorem iterate_never_returns_large_table :
    ∃ t, run mem_ex (some (create_hashmap UINT_RANGE)) [Op.insert 1 10 none] = .ok (some t) ∧
      (⟨1, 10⟩ : Node) ∈ entries t ∧
      ∀ fuel, iterate fuel (some t) true = .out_of_fuel :=
  iterate_diverges_of_large mem_ex UINT_RANGE 1 10 (Nat.le_refl _)

/-- C9, the code differs for `2 ^ 32` buckets or more: on the empty table with
`2 ^ 32` buckets `delete_hashmap` does not return, with or without a
destruction function and whatever the fuel: the `unsigned int` counter of its
`for` loop wraps to `0` and never reaches the `size_t` bound `key_space`. -/
theorem delete_hashmap_never_returns_large_table :
    entries (create_hashmap UINT_RANGE) = [] ∧
    ∀ (fuel : Nat) (dd : Bool),
      delete_hashmap fuel (some (create_hashmap UINT_RANGE)) dd = .out_of_fuel :=
  delete_hashmap_diverges_of_large UINT_RANGE (Nat.le_refl _)


/-- The visiting order of `iterate` at a concrete input: four buckets, "a"
(address 3, bucket 1) and "b" (address 4, bucket 2). -/
theorem iterate_visits_entries_witness :
    iterate 5 (some ⟨[[], [⟨3, 1⟩], [⟨4, 2⟩], []], 4⟩) true
      = .ok { hm := some ⟨[[], [⟨3, 1⟩], [⟨4, 2⟩], []], 4⟩,
              events := (entries ⟨[[], [⟨3, 1⟩], [⟨4, 2⟩], []], 4⟩).map
                fun nd => Event.callback nd.key nd.data } ∧
    ((entries ⟨[[], [⟨3, 1⟩], [⟨4, 2⟩], []], 4⟩).map Node.key).Nodup ∧
    (∀ nd ∈ entries ⟨[[], [⟨3, 1⟩], [⟨4, 2⟩], []], 4⟩,
      get_data mem_ex (some ⟨[[], [⟨3, 1⟩], [⟨4, 2⟩], []], 4⟩) nd.key
        = .ok (nd.data, { hm := some ⟨[[], [⟨3, 1⟩], [⟨4, 2⟩], []], 4⟩, events := [] })) :=
  iterate_visits_entries mem_ex 4 5 ⟨[[], [⟨3, 1⟩], [⟨4, 2⟩], []], 4⟩ (by decide) (by decide)
    ⟨[Op.insert 3 1 none, Op.insert 4 2 none], by decide⟩ (by decide)

/-- The teardown at a concrete input: the same table, with a destruction
function. -/
theorem delete_hashmap_destroys_entries_witness :
    delete_hashmap 5 (some ⟨[[], [⟨3, 1⟩], [⟨4, 2⟩], []], 4⟩) true
      = .ok { hm := some ⟨List.replicate 4 [], 4⟩,
              events := if true then (entries ⟨[[], [⟨3, 1⟩], [⟨4, 2⟩], []], 4⟩).map
                  (fun nd => Event.destroy_data nd.data)
                else [] } :=
  delete_hashmap_destroys_entries mem_ex 4 5 ⟨[[], [⟨3, 1⟩], [⟨4, 2⟩], []], 4⟩ true
    (by decide) (by decide) ⟨[Op.insert 3 1 none, Op.insert 4 2 none], by decide⟩ (by decide)


/-! ## The hash function -/

theorem key_chars_cons_ne (c : Int) (rest : List Int) (hc : c ≠ 0) :
    key_chars (c :: rest) = c :: key_chars rest := by
  simp [key_chars, List.takeWhile_cons, hc]

theorem key_chars_cons_zero (rest : List Int) : key_chars (0 :: rest) = [] := by
  simp [key_chars, List.takeWhile_cons]

/-- The loop of `hash` adds the `char` values of the characters of the key to
`index`, modulo `2 ^ 32`. -/
theorem hash_loop_eq (s : List Int) :
    ∀ index : Nat, index < UINT_RANGE →
      hash_loop s index
        = Int.toNat (((index : Int) + (key_chars s).sum) % (UINT_RANGE : Int)) := by
  have hpos : (0 : Int) < (UINT_RANGE : Int) := by exact_mod_cast UINT_RANGE_pos
  induction s with
  | nil =>
    intro index h
    have h' : ((index : Int)) < (UINT_RANGE : Int) := by exact_mod_cast h
    simp only [hash_loop, key_chars, List.takeWhile_nil, List.sum_nil, add_zero]
    rw [Int.emod_eq_of_lt (Int.ofNat_nonneg _) h', Int.toNat_ofNat]
  | cons c rest ih =>
    intro index h
    have h' : ((index : Int)) < (UINT_RANGE : Int) := by exact_mod_cast h
    by_cases hc : c = 0
    · subst hc
      simp only [hash_loop, if_true, key_chars_cons_zero, List.sum_nil, add_zero]
      rw [Int.emod_eq_of_lt (Int.ofNat_nonneg _) h', Int.toNat_ofNat]
    · have h1 := Int.emod_lt_of_pos ((index : Int) + c) hpos
      have h0 := Int.emod_nonneg ((index : Int) + c) (ne_of_gt hpos)
      have hlt : Int.toNat (((index : Int) + c) % (UINT_RANGE : Int)) < UINT_RANGE := by omega
      simp only [hash_loop, hc, if_false, key_chars_cons_ne c rest hc, List.sum_cons]
      rw [ih _ hlt, Int.toNat_of_nonneg h0, Int.emod_add_emod, add_assoc]

theorem hash_eq (mem : StrMem) (key : Ptr) :
    hash mem key = Int.toNat ((key_chars (mem key)).sum % (UINT_RANGE : Int)) := by
  unfold hash
  rw [hash_loop_eq _ 0 UINT_RANGE_pos]
  simp

/-- C16: two keys whose characters are permutations of one another have the
same hash, and so select the same bucket for every bucket count `n ≥ 1`. -/
theorem anagram_keys_collide (mem : StrMem) (k1 k2 : Ptr)
    (hp : (key_chars (mem k1)).Perm (key_chars (mem k2))) :
    hash mem k1 = hash mem k2 ∧ ∀ n, 1 ≤ n → hash mem k1 % n = hash mem k2 % n := by
  have h : hash mem k1 = hash mem k2 := by
    rw [hash_eq, hash_eq, hp.sum_eq]
  exact ⟨h, fun n _ => by rw [h]⟩

/-- C16 at a concrete input: "abc" at address 1 and "cab" at address 2. -/
theorem anagram_keys_collide_witness :
    hash mem_anagram 1 = hash mem_anagram 2 ∧
      ∀ n, 1 ≤ n → hash mem_anagram 1 % n = hash mem_anagram 2 % n :=
  anagram_keys_collide mem_anagram 1 2 (by decide)


/-! ## Bucket indexing, prepending and unlinking -/

theorem insert_loop_outcome (key data : Ptr) (rc : Option (Ptr → Ptr → Ptr))
    (chain : List Node) :
    (∃ r, insert_loop key data rc chain = .ok r) ∨
      insert_loop key data rc chain = .fault .null_call := by
  by_cases hk : key ∈ chain.map Node.key
  · cases rc with
    | none => exact Or.inr (insert_loop_null key data chain hk)
    | some f =>
      obtain ⟨c, h1, _⟩ := insert_loop_present key data f chain hk
      exact Or.inl ⟨_, h1⟩
  · exact Or.inl ⟨_, insert_loop_absent key data rc chain hk⟩

/-- C12: in a table reached from `create_hashmap n`, `1 ≤ n`, `key_space` is
`n` and the bucket array has `n` slots; for every key the index
`hash(key) % key_space` is below `n` and the slot at that index exists, so
`insert_data`, `get_data` and `remove_data` meet neither a division by zero nor
an access outside the bucket array; `get_data` and `remove_data` return. -/
theorem bucket_index_in_range (mem : StrMem) (n : Nat) (t : HashMap) (hn : 1 ≤ n)
    (hr : Reachable mem n t) :
    t.key_space = n ∧ t.map.length = n ∧
    ∀ k : Ptr, hash mem k % t.key_space < n ∧
      (∃ chain, t.map[hash mem k % t.key_space]? = some chain) ∧
      (∀ v rc, insert_data mem (some t) k v rc ≠ .fault .div_by_zero ∧
        insert_data mem (some t) k v rc ≠ .fault .out_of_bounds) ∧
      (∃ r, get_data mem (some t) k = .ok r) ∧
      (∀ dd, ∃ out, remove_data mem (some t) k dd = .ok out) := by
  have h := hr.wf hn
  refine ⟨h.key_space_eq, h.length_eq, fun k => ?_⟩
  obtain ⟨chain, hc⟩ := h.chain_at hn k
  have h0 := h.key_space_ne hn
  refine ⟨by rw [h.key_space_eq]; exact Nat.mod_lt _ hn, ⟨chain, hc⟩, ?_, ?_, ?_⟩
  · intro v rc
    rw [insert_data_eq mem t k v rc chain h0 hc]
    rcases insert_loop_outcome k v rc chain with ⟨r, hr'⟩ | hf
    · rw [hr']
      cases r with
      | none => exact ⟨(fun e => by cases e), (fun e => by cases e)⟩
      | some p => exact ⟨(fun e => by cases e), (fun e => by cases e)⟩
    · rw [hf]
      exact ⟨(fun e => by cases e), (fun e => by cases e)⟩
  · exact ⟨_, get_data_eq mem t k chain h0 hc⟩
  · intro dd
    rw [remove_data_eq mem t k dd chain h0 hc]
    split
    · exact ⟨_, rfl⟩
    · exact ⟨_, rfl⟩

/-- C12 at a concrete input: one bucket holding "b" and "a". -/
theorem bucket_index_in_range_witness :
    (⟨[[⟨4, 2⟩, ⟨3, 1⟩]], 1⟩ : HashMap).key_space = 1 ∧
    (⟨[[⟨4, 2⟩, ⟨3, 1⟩]], 1⟩ : HashMap).map.length = 1 ∧
    ∀ k : Ptr, hash mem_ex k % (⟨[[⟨4, 2⟩, ⟨3, 1⟩]], 1⟩ : HashMap).key_space < 1 ∧
      (∃ chain, (⟨[[⟨4, 2⟩, ⟨3, 1⟩]], 1⟩ : HashMap).map[
        hash mem_ex k % (⟨[[⟨4, 2⟩, ⟨3, 1⟩]], 1⟩ : HashMap).key_space]? = some chain) ∧
      (∀ v rc, insert_data mem_ex (some ⟨[[⟨4, 2⟩, ⟨3, 1⟩]], 1⟩) k v rc ≠ .fault .div_by_zero ∧
        insert_data mem_ex (some ⟨[[⟨4, 2⟩, ⟨3, 1⟩]], 1⟩) k v rc ≠ .fault .out_of_bounds) ∧
      (∃ r, get_data mem_ex (some ⟨[[⟨4, 2⟩, ⟨3, 1⟩]], 1⟩) k = .ok r) ∧
      (∀ dd, ∃ out, remove_data mem_ex (some ⟨[[⟨4, 2⟩, ⟨3, 1⟩]], 1⟩) k dd = .ok out) :=
  bucket_index_in_range mem_ex 1 ⟨[[⟨4, 2⟩, ⟨3, 1⟩]], 1⟩ (by decide)
    ⟨[Op.insert 3 1 none, Op.insert 4 2 none], by decide⟩

/-- C13: on a reachable table, `insert_data` with a key that is not stored
puts the new entry in front of the chain of the bucket `hash(k) % key_space`:
the chain afterwards is the entry `(k, v)` followed by the chain as it was;
for an empty bucket this is the chain of one entry. -/
theorem insert_absent_prepends (mem : StrMem) (n : Nat) (t : HashMap) (k v : Ptr)
    (rc : Option (Ptr → Ptr → Ptr)) (hn : 1 ≤ n) (hr : Reachable mem n t) (hk : k ∉ keys t) :
    ∃ t' chain, insert_data mem (some t) k v rc = .ok { hm := some t', events := [] } ∧
      t.map[hash mem k % t.key_space]? = some chain ∧
      t'.map[hash mem k % t.key_space]? = some (⟨k, v⟩ :: chain) ∧
      (chain = [] → t'.map[hash mem k % t.key_space]? = some [⟨k, v⟩]) ∧
      t'.key_space = t.key_space := by
  have h := hr.wf hn
  obtain ⟨chain, hc, _, he, _⟩ := h.insert_absent hn k v rc hk
  have hc' : (t.map.set (hash mem k % t.key_space) (⟨k, v⟩ :: chain))[hash mem k % t.key_space]?
      = some (⟨k, v⟩ :: chain) := getElem?_set_self_of_lt _ _ _ (h.bucket_lt hn k)
  exact ⟨_, chain, he, hc, hc', (fun e => by subst e; exact hc'), rfl⟩

/-- C13 at a concrete input: one bucket holding "a"; "b" is inserted. -/
theorem insert_absent_prepends_witness :
    ∃ t' chain, insert_data mem_ex (some ⟨[[⟨3, 1⟩]], 1⟩) 4 2 none
        = .ok { hm := some t', events := [] } ∧
      (⟨[[⟨3, 1⟩]], 1⟩ : HashMap).map[hash mem_ex 4 % (⟨[[⟨3, 1⟩]], 1⟩ : HashMap).key_space]?
        = some chain ∧
      t'.map[hash mem_ex 4 % (⟨[[⟨3, 1⟩]], 1⟩ : HashMap).key_space]? = some (⟨4, 2⟩ :: chain) ∧
      (chain = [] →
        t'.map[hash mem_ex 4 % (⟨[[⟨3, 1⟩]], 1⟩ : HashMap).key_space]? = some [⟨4, 2⟩]) ∧
      t'.key_space = (⟨[[⟨3, 1⟩]], 1⟩ : HashMap).key_space :=
  insert_absent_prepends mem_ex 1 ⟨[[⟨3, 1⟩]], 1⟩ 4 2 none (by decide)
    ⟨[Op.insert 3 1 none], by decide⟩ (by decide)


theorem eraseP_key_split (k v : Ptr) (chain : List Node) (hnd : (chain.map Node.key).Nodup)
    (hs : (⟨k, v⟩ : Node) ∈ chain) :
    ∃ pre post, chain = pre ++ ⟨k, v⟩ :: post ∧
      chain.eraseP (fun nd => decide (nd.key = k)) = pre ++ post ∧
      k ∉ pre.map Node.key := by
  obtain ⟨a, pre, post, hpre, ha, hsplit, herase⟩ :=
    @List.exists_of_eraseP Node (fun nd => decide (nd.key = k)) chain ⟨k, v⟩ hs (by simp)
  have hak : a.key = k := by simpa using ha
  have hain : a ∈ chain := by rw [hsplit]; simp
  have hav : a = ⟨k, v⟩ := List.inj_on_of_nodup_map hnd hain hs hak
  subst hav
  refine ⟨pre, post, hsplit, herase, ?_⟩
  intro hin
  obtain ⟨b, hb, hbk⟩ := List.mem_map.mp hin
  exact hpre b hb (by simpa using hbk)

/-- C14: on a reachable table in which key `k` is stored with value `v`,
`remove_data` with `k` takes exactly that entry out: the chain of the bucket of
`k` was `pre ++ (k, v) :: post` and is `pre ++ post` afterwards, the other
entries in their previous order (`pre` is empty for a removal at the head;
otherwise its last entry is the predecessor whose link is re-pointed); every
other bucket keeps its chain, `key_space` is unchanged, and for every key other
than `k` the lookup returns the same pointer before and after. -/
theorem remove_stored_unlinks_one (mem : StrMem) (n : Nat) (t : HashMap) (k v : Ptr)
    (dd : Bool) (hn : 1 ≤ n) (hr : Reachable mem n t) (hs : (⟨k, v⟩ : Node) ∈ entries t) :
    ∃ t' pre post,
      remove_data mem (some t) k dd
        = .ok { hm := some t', events := if dd then [Event.destroy_data v] else [] } ∧
      t.map[hash mem k % t.key_space]? = some (pre ++ ⟨k, v⟩ :: post) ∧
      k ∉ pre.map Node.key ∧
      t'.map[hash mem k % t.key_space]? = some (pre ++ post) ∧
      (∀ i, i ≠ hash mem k % t.key_space → t'.map[i]? = t.map[i]?) ∧
      t'.key_space = t.key_space ∧
      (∀ k', k' ≠ k →
        ∃ p, get_data mem (some t) k' = .ok (p, { hm := some t, events := [] }) ∧
          get_data mem (some t') k' = .ok (p, { hm := some t', events := [] })) := by
  have h := hr.wf hn
  have hk : k ∈ keys t := List.mem_map_of_mem Node.key hs
  obtain ⟨chain, hc, _, he, _⟩ := h.remove_present hn k dd hk
  have hin : (⟨k, v⟩ : Node) ∈ chain := (h.mem_entries_iff hc).mp hs
  have hv : get_loop k chain = v := get_loop_stored k v chain (h.nodup _ chain hc) hin
  rw [hv] at he
  obtain ⟨pre, post, hsplit, herase, hpre⟩ := eraseP_key_split k v chain (h.nodup _ chain hc) hin
  refine ⟨_, pre, post, he, hsplit ▸ hc, hpre, ?_, ?_, rfl, ?_⟩
  · rw [← herase]
    exact getElem?_set_self_of_lt _ _ _ (h.bucket_lt hn k)
  · intro i hi
    exact getElem?_set_of_ne _ _ _ _ (fun e => hi e.symm)
  · intro k' hne
    exact h.get_data_set hn k k' chain _ hc (get_loop_eraseP_ne k k' chain hne)

/-- C14 at a concrete input: one bucket with the chain "b", "a", "x"; the
entry for "a", in the middle, is removed. -/
theorem remove_stored_unlinks_one_witness :
    ∃ t' pre post,
      remove_data mem_ex (some ⟨[[⟨4, 2⟩, ⟨3, 1⟩, ⟨1, 10⟩]], 1⟩) 3 true
        = .ok { hm := some t', events := if true then [Event.destroy_data 1] else [] } ∧
      (⟨[[⟨4, 2⟩, ⟨3, 1⟩, ⟨1, 10⟩]], 1⟩ : HashMap).map[
          hash mem_ex 3 % (⟨[[⟨4, 2⟩, ⟨3, 1⟩, ⟨1, 10⟩]], 1⟩ : HashMap).key_space]?
        = some (pre ++ ⟨3, 1⟩ :: post) ∧
      3 ∉ pre.map Node.key ∧
      t'.map[hash mem_ex 3 % (⟨[[⟨4, 2⟩, ⟨3, 1⟩, ⟨1, 10⟩]], 1⟩ : HashMap).key_space]?
        = some (pre ++ post) ∧
      (∀ i, i ≠ hash mem_ex 3 % (⟨[[⟨4, 2⟩, ⟨3, 1⟩, ⟨1, 10⟩]], 1⟩ : HashMap).key_space →
        t'.map[i]? = (⟨[[⟨4, 2⟩, ⟨3, 1⟩, ⟨1, 10⟩]], 1⟩ : HashMap).map[i]?) ∧
      t'.key_space = (⟨[[⟨4, 2⟩, ⟨3, 1⟩, ⟨1, 10⟩]], 1⟩ : HashMap).key_space ∧
      (∀ k', k' ≠ 3 →
        ∃ p, get_data mem_ex (some ⟨[[⟨4, 2⟩, ⟨3, 1⟩, ⟨1, 10⟩]], 1⟩) k'
            = .ok (p, { hm := some ⟨[[⟨4, 2⟩, ⟨3, 1⟩, ⟨1, 10⟩]], 1⟩, events := [] }) ∧
          get_data mem_ex (some t') k' = .ok (p, { hm := some t', events := [] })) :=
  remove_stored_unlinks_one mem_ex 1 ⟨[[⟨4, 2⟩, ⟨3, 1⟩, ⟨1, 10⟩]], 1⟩ 3 1 true (by decide)
    ⟨[Op.insert 1 10 none, Op.insert 3 1 none, Op.insert 4 2 none], by decide⟩ (by decide)


/-! ## The null handle, bucket placement and the round trip -/

/-- C18: with a `NULL` table handle every operation returns without a fault,
whatever the key, the value, the callbacks and the fuel: none of
`resolve_collision`, `destroy_data` and `callback` is called (the only
recorded action is the message printed with `printf`), the handle is still
`NULL` afterwards, and `get_data` returns `NULL`. -/
theorem null_handle_returns (mem : StrMem) (key data : Ptr)
    (resolve_collision : Option (Ptr → Ptr → Ptr)) (destroy_data callback : Bool)
    (fuel : Nat) :
    insert_data mem none key data resolve_collision
      = .ok { hm := none, events := [Event.print] } ∧
    remove_data mem none key destroy_data = .ok { hm := none, events := [Event.print] } ∧
    iterate fuel none callback = .ok { hm := none, events := [Event.print] } ∧
    delete_hashmap fuel none destroy_data = .ok { hm := none, events := [Event.print] } ∧
    get_data mem none key = .ok (NULL, { hm := none, events := [Event.print] }) :=
  ⟨rfl, rfl, rfl, rfl, rfl⟩

/-- C19: in a table reached from `create_hashmap n`, `1 ≤ n`, every entry in
the chain of bucket `i` has a key with `hash(key) % n = i`; hence a key that
occurs in some chain occurs in the chain of the bucket `hash(key) % key_space`,
the one that `get_data` and `remove_data` scan, and in no other. -/
theorem bucket_placement (mem : StrMem) (n : Nat) (t : HashMap) (hn : 1 ≤ n)
    (hr : Reachable mem n t) :
    (∀ (i : Nat) (chain : List Node), t.map[i]? = some chain →
      ∀ nd ∈ chain, hash mem nd.key % n = i) ∧
    (∀ (k : Ptr) (i : Nat) (chain : List Node), t.map[i]? = some chain →
      k ∈ chain.map Node.key → i = hash mem k % t.key_space) ∧
    (∀ k : Ptr, k ∈ keys t ↔
      ∃ chain, t.map[hash mem k % t.key_space]? = some chain ∧ k ∈ chain.map Node.key) := by
  have h := hr.wf hn
  refine ⟨h.placed, ?_, ?_⟩
  · intro k i chain hc hk
    obtain ⟨nd, hnd, rfl⟩ := List.mem_map.mp hk
    rw [h.key_space_eq, h.placed i chain hc nd hnd]
  · intro k
    obtain ⟨chain, hc⟩ := h.chain_at hn k
    constructor
    · intro hk
      exact ⟨chain, hc, (h.mem_keys_iff hc).mp hk⟩
    · rintro ⟨chain', hc', hk⟩
      exact (h.mem_keys_iff hc').mpr hk

/-- C19 at a concrete input: four buckets, "a" in bucket 1 and "b" in bucket
2. -/
theorem bucket_placement_witness :
    (∀ (i : Nat) (chain : List Node),
      (⟨[[], [⟨3, 1⟩], [⟨4, 2⟩], []], 4⟩ : HashMap).map[i]? = some chain →
      ∀ nd ∈ chain, hash mem_ex nd.key % 4 = i) ∧
    (∀ (k : Ptr) (i : Nat) (chain : List Node),
      (⟨[[], [⟨3, 1⟩], [⟨4, 2⟩], []], 4⟩ : HashMap).map[i]? = some chain →
      k ∈ chain.map Node.key →
      i = hash mem_ex k % (⟨[[], [⟨3, 1⟩], [⟨4, 2⟩], []], 4⟩ : HashMap).key_space) ∧
    (∀ k : Ptr, k ∈ keys ⟨[[], [⟨3, 1⟩], [⟨4, 2⟩], []], 4⟩ ↔
      ∃ chain, (⟨[[], [⟨3, 1⟩], [⟨4, 2⟩], []], 4⟩ : HashMap).map[
          hash mem_ex k % (⟨[[], [⟨3, 1⟩], [⟨4, 2⟩], []], 4⟩ : HashMap).key_space]?
        = some chain ∧ k ∈ chain.map Node.key) :=
  bucket_placement mem_ex 4 ⟨[[], [⟨3, 1⟩], [⟨4, 2⟩], []], 4⟩ (by decide)
    ⟨[Op.insert 3 1 none, Op.insert 4 2 none], by decide⟩

theorem set_set_back {α : Type} (l : List α) (b : Nat) (x c : α) (hc : l[b]? = some c) :
    (l.set b x).set b c = l := by
  rw [List.set_set]
  apply List.ext_getElem?
  intro i
  by_cases hb : b = i
  · subst hb
    have hlt : b < l.length := by
      by_contra hge
      rw [List.getElem?_eq_none (Nat.le_of_not_lt hge)] at hc
      cases hc
    rw [getElem?_set_self_of_lt _ _ _ hlt, hc]
  · rw [getElem?_set_of_ne _ _ _ _ hb]

/-- C20: on a reachable table, inserting a key that is not stored, with any
value and any policy, and then removing it with a `NULL` destruction function
gives back the table as it was: the same `key_space` and the same bucket
array, every chain with the same entries in the same order.  Neither call
makes a callback call. -/
theorem insert_then_remove_restores (mem : StrMem) (n : Nat) (t : HashMap) (k v : Ptr)
    (rc : Option (Ptr → Ptr → Ptr)) (hn : 1 ≤ n) (hr : Reachable mem n t) (hk : k ∉ keys t) :
    ∃ t', insert_data mem (some t) k v rc = .ok { hm := some t', events := [] } ∧
      remove_data mem (some t') k false = .ok { hm := some t, events := [] } := by
  have h := hr.wf hn
  obtain ⟨chain, hc, _, he, _⟩ := h.insert_absent hn k v rc hk
  refine ⟨_, he, ?_⟩
  have hc' : (t.map.set (hash mem k % t.key_space) (⟨k, v⟩ :: chain))[hash mem k % t.key_space]?
      = some (⟨k, v⟩ :: chain) := getElem?_set_self_of_lt _ _ _ (h.bucket_lt hn k)
  rw [remove_data_eq mem ⟨t.map.set (hash mem k % t.key_space) (⟨k, v⟩ :: chain), t.key_space⟩
    k false (⟨k, v⟩ :: chain) (h.key_space_ne hn) hc']
  have hin : k ∈ List.map Node.key (⟨k, v⟩ :: chain) := by simp
  rw [if_pos hin]
  have herase : List.eraseP (fun nd => decide (nd.key = k)) (⟨k, v⟩ :: chain) = chain := by
    simp [List.eraseP_cons]
  simp only [herase, set_set_back t.map _ _ chain hc]
  rfl

/-- C20 at a concrete input: one bucket holding "a"; "b" is inserted and
removed again. -/
theorem insert_then_remove_restores_witness :
    ∃ t', insert_data mem_ex (some ⟨[[⟨3, 1⟩]], 1⟩) 4 2 (some fun a b => a + b)
        = .ok { hm := some t', events := [] } ∧
      remove_data mem_ex (some t') 4 false = .ok { hm := some ⟨[[⟨3, 1⟩]], 1⟩, events := [] } :=
  insert_then_remove_restores mem_ex 1 ⟨[[⟨3, 1⟩]], 1⟩ 4 2 (some fun a b => a + b) (by decide)
    ⟨[Op.insert 3 1 none], by decide⟩ (by decide)


/-! ## The bucket loops on a table with `2 ^ 32` buckets or more -/

/-- With `2 ^ 32` buckets or more, `m` rounds of the `for` loop of `iterate`
started at bucket `i`, `i + m ≤ 2 ^ 32`, visit the chains of the buckets
`i .. i + m - 1` and leave the counter at `(i + m) % 2 ^ 32`. -/
theorem iterate_loop_rounds (t : HashMap) (hlen : t.map.length = t.key_space)
    (hbig : UINT_RANGE ≤ t.key_space) :
    ∀ (m i : Nat) (acc : List Event) (fuel : Nat), i < UINT_RANGE → i + m ≤ UINT_RANGE →
      iterate_loop t true (m + fuel) i acc =
        iterate_loop t true fuel ((i + m) % UINT_RANGE)
          (acc ++ ((t.map.drop i).take m).flatten.map
            fun nd => Event.callback nd.key nd.data) := by
  intro m
  induction m with
  | zero =>
    intro i acc fuel hi _
    simp [Nat.mod_eq_of_lt hi]
  | succ m ih =>
    intro i acc fuel hi him
    have hlt : i < t.key_space := Nat.lt_of_lt_of_le hi hbig
    have hlt' : i < t.map.length := hlen ▸ hlt
    have hget : t.map[i]? = some t.map[i] := List.getElem?_eq_getElem hlt'
    have hfuel : m + 1 + fuel = (m + fuel) + 1 := by omega
    rw [hfuel]
    simp only [iterate_loop, hlt, if_true, hget, iterate_chain_true]
    rw [List.drop_eq_getElem_cons hlt', List.take_succ_cons, List.flatten_cons, List.map_append,
      ← List.append_assoc]
    by_cases hwrap : i + 1 < UINT_RANGE
    · rw [Nat.mod_eq_of_lt hwrap, ih (i + 1) _ fuel hwrap (by omega)]
      have : i + 1 + m = i + (m + 1) := by omega
      rw [this]
    · have hm : m = 0 := by omega
      subst hm
      have hU : i + 1 = UINT_RANGE := by omega
      simp [hU]

/-- With `2 ^ 32` buckets or more, after `2 ^ 32` rounds the `for` loop of
`iterate` is at bucket `0` again, having visited the chains of the first
`2 ^ 32` buckets. -/
theorem iterate_loop_restarts (t : HashMap) (hlen : t.map.length = t.key_space)
    (hbig : UINT_RANGE ≤ t.key_space) (fuel : Nat) (acc : List Event) :
    iterate_loop t true (UINT_RANGE + fuel) 0 acc =
      iterate_loop t true fuel 0
        (acc ++ (t.map.take UINT_RANGE).flatten.map
          fun nd => Event.callback nd.key nd.data) := by
  have h := iterate_loop_rounds t hlen hbig UINT_RANGE 0 acc fuel UINT_RANGE_pos (by omega)
  rw [h]
  simp


/-- The table made by one insertion into the fresh table. -/
theorem one_insert (mem : StrMem) (n : Nat) (k v : Ptr) (hn : 1 ≤ n) :
    ∃ t, run mem (some (create_hashmap n)) [Op.insert k v none] = .ok (some t) ∧
      WF mem n t ∧ ∃ chain, t.map[hash mem k % n]? = some (⟨k, v⟩ :: chain) := by
  have h0 := WF_create mem n
  have hk : k ∉ keys (create_hashmap n) := by
    unfold keys; rw [entries_create]; exact List.not_mem_nil _
  obtain ⟨chain, _, _, he, hw⟩ := h0.insert_absent hn k v none hk
  refine ⟨⟨(create_hashmap n).map.set (hash mem k % (create_hashmap n).key_space)
      (⟨k, v⟩ :: chain), (create_hashmap n).key_space⟩, ?_, hw, chain, ?_⟩
  · simp only [run, step, he]
  · have := getElem?_set_self_of_lt (create_hashmap n).map
      (hash mem k % (create_hashmap n).key_space) (⟨k, v⟩ :: chain) (h0.bucket_lt hn k)
    rw [h0.key_space_eq] at this
    exact this

/-- With `2 ^ 32` buckets or more, `iterate` on the table made by one insertion
calls `callback` on the entry during its first `2 ^ 32` rounds, is then at
bucket `0` again, and never returns. -/
theorem iterate_revisits_of_large (mem : StrMem) (n : Nat) (k v : Ptr)
    (hbig : UINT_RANGE ≤ n) :
    ∃ t pass, run mem (some (create_hashmap n)) [Op.insert k v none] = .ok (some t) ∧
      Event.callback k v ∈ pass ∧
      (∀ (fuel : Nat) (acc : List Event),
        iterate_loop t true (UINT_RANGE + fuel) 0 acc
          = iterate_loop t true fuel 0 (acc ++ pass)) ∧
      ∀ fuel, iterate fuel (some t) true = .out_of_fuel := by
  have hn : 1 ≤ n := Nat.le_trans UINT_RANGE_pos hbig
  obtain ⟨t, hrun, hw, chain, hc⟩ := one_insert mem n k v hn
  have hlen : t.map.length = t.key_space := hw.length_eq.trans hw.key_space_eq.symm
  have hbig' : UINT_RANGE ≤ t.key_space := Nat.le_trans hbig (Nat.le_of_eq hw.key_space_eq.symm)
  refine ⟨t, (t.map.take UINT_RANGE).flatten.map fun nd => Event.callback nd.key nd.data,
    hrun, ?_, fun fuel acc => iterate_loop_restarts t hlen hbig' fuel acc, ?_⟩
  · have hb : hash mem k % n < UINT_RANGE :=
      Nat.lt_of_le_of_lt (Nat.mod_le _ _) (bucket_fits mem k n).1
    have hin : (⟨k, v⟩ :: chain) ∈ t.map.take UINT_RANGE :=
      List.mem_iff_getElem?.mpr ⟨hash mem k % n, by rw [List.getElem?_take_of_lt hb, hc]⟩
    exact List.mem_map.mpr ⟨⟨k, v⟩,
      List.mem_flatten.mpr ⟨_, hin, List.mem_cons_self _ _⟩, rfl⟩
  · intro fuel
    have hd := iterate_loop_diverges t hlen hbig' fuel 0 [] UINT_RANGE_pos
    simp only [iterate, hd]

/-- With `2 ^ 32` buckets or more, neither `iterate` nor `delete_hashmap`
returns on the table made by one insertion. -/
theorem bucket_loops_diverge_of_large (mem : StrMem) (n : Nat) (k v : Ptr)
    (hbig : UINT_RANGE ≤ n) :
    ∃ t, run mem (some (create_hashmap n)) [Op.insert k v none] = .ok (some t) ∧
      (⟨k, v⟩ : Node) ∈ entries t ∧
      ∀ (fuel : Nat) (dd : Bool), iterate fuel (some t) true = .out_of_fuel ∧
        delete_hashmap fuel (some t) dd = .out_of_fuel := by
  have hn : 1 ≤ n := Nat.le_trans UINT_RANGE_pos hbig
  obtain ⟨t, hrun, hw, chain, hc⟩ := one_insert mem n k v hn
  have hlen : t.map.length = t.key_space := hw.length_eq.trans hw.key_space_eq.symm
  have hbig' : UINT_RANGE ≤ t.key_space := Nat.le_trans hbig (Nat.le_of_eq hw.key_space_eq.symm)
  refine ⟨t, hrun, mem_entries.mpr ⟨_, _, hc, List.mem_cons_self _ _⟩, fun fuel dd => ⟨?_, ?_⟩⟩
  · have hd := iterate_loop_diverges t hlen hbig' fuel 0 [] UINT_RANGE_pos
    simp only [iterate, hd]
  · have hd := delete_loop_diverges t.key_space dd hbig' fuel 0 t.map [] hlen UINT_RANGE_pos
    simp only [delete_hashmap, hd]

/-- C15, the code differs for `2 ^ 32` buckets or more: in the table with
`2 ^ 32` buckets into which "a" (address 3) has been inserted with value 1,
the `for` loop of `iterate` passes the entry to `callback` during its first
`2 ^ 32` rounds and is then at bucket `0` again with the table unchanged, so
the entry is passed again on every further pass, and `iterate` never returns:
the pairs passed are not the one concatenation of the chains. -/
theorem iterate_order_repeats_large_table :
    ∃ t pass, run mem_ex (some (create_hashmap UINT_RANGE)) [Op.insert 3 1 none]
        = .ok (some t) ∧
      Event.callback 3 1 ∈ pass ∧
      (∀ (fuel : Nat) (acc : List Event),
        iterate_loop t true (UINT_RANGE + fuel) 0 acc
          = iterate_loop t true fuel 0 (acc ++ pass)) ∧
      ∀ fuel, iterate fuel (some t) true = .out_of_fuel :=
  iterate_revisits_of_large mem_ex UINT_RANGE 3 1 (Nat.le_refl _)

/-- C17, the code differs for `2 ^ 32` buckets or more: on the table with
`2 ^ 32 + 1` buckets into which "b" (address 4) has been inserted with value
2, neither `iterate` nor `delete_hashmap` returns, whatever the fuel: the
`unsigned int` counter wraps to `0` before it reaches `key_space`, so the
bucket loop does not end after `key_space` rounds, nor ever. -/
theorem bucket_loops_never_end_large_table :
    ∃ t, run mem_ex (some (create_hashmap (UINT_RANGE + 1))) [Op.insert 4 2 none]
        = .ok (some t) ∧
      (⟨4, 2⟩ : Node) ∈ entries t ∧
      ∀ (fuel : Nat) (dd : Bool), iterate fuel (some t) true = .out_of_fuel ∧
        delete_hashmap fuel (some t) dd = .out_of_fuel :=
  bucket_loops_diverge_of_large mem_ex (UINT_RANGE + 1) 4 2 (Nat.le_succ _)


/-! ## The bucket loops on a table with fewer than `2 ^ 32` buckets -/

theorem iterate_loop_short (t : HashMap) (hlen : t.map.length = t.key_space)
    (hsmall : t.key_space < UINT_RANGE) :
    ∀ (fuel i : Nat) (acc : List Event), i ≤ t.key_space → fuel ≤ t.key_space - i →
      iterate_loop t true fuel i acc = .out_of_fuel := by
  intro fuel
  induction fuel with
  | zero => intro i acc _ _; rfl
  | succ fuel ih =>
    intro i acc hi hf
    have hlt : i < t.key_space := by omega
    have hlt' : i < t.map.length := hlen ▸ hlt
    have hget : t.map[i]? = some t.map[i] := List.getElem?_eq_getElem hlt'
    have hmod : (i + 1) % UINT_RANGE = i + 1 := Nat.mod_eq_of_lt (by omega)
    simp only [iterate_loop, hlt, if_true, hget, iterate_chain_true, hmod]
    exact ih _ _ (by omega) (by omega)

theorem delete_loop_short (key_space : Nat) (dd : Bool) (hsmall : key_space < UINT_RANGE) :
    ∀ (fuel i : Nat) (map : List (List Node)) (acc : List Event),
      map.length = key_space → i ≤ key_space → fuel ≤ key_space - i →
      delete_loop key_space dd fuel i map acc = .out_of_fuel := by
  intro fuel
  induction fuel with
  | zero => intro i map acc _ _ _; rfl
  | succ fuel ih =>
    intro i map acc hlen hi hf
    have hlt : i < key_space := by omega
    have hlt' : i < map.length := hlen ▸ hlt
    have hget : map[i]? = some map[i] := List.getElem?_eq_getElem hlt'
    have hmod : (i + 1) % UINT_RANGE = i + 1 := Nat.mod_eq_of_lt (by omega)
    simp only [delete_loop, hlt, if_true, hget, hmod]
    cases map[i] with
    | nil => exact ih _ _ _ hlen (by omega) (by omega)
    | cons temp next => exact ih _ _ _ (by simp [hlen]) (by omega) (by omega)

/-- In a table with fewer than `2 ^ 32` buckets, reached from
`create_hashmap n`, the bucket loops of `iterate` and `delete_hashmap` end
after exactly `n` rounds: the operations return when the loop condition may be
evaluated more than `n` times and not before. -/
theorem bucket_loops_end_after_key_space_rounds (mem : StrMem) (n fuel : Nat) (t : HashMap)
    (dd : Bool) (hn : 1 ≤ n) (hsmall : n < UINT_RANGE) (hr : Reachable mem n t) :
    ((∃ out, iterate fuel (some t) true = .ok out) ↔ n < fuel) ∧
    ((∃ out, delete_hashmap fuel (some t) dd = .ok out) ↔ n < fuel) := by
  have h := hr.wf hn
  have hlen : t.map.length = t.key_space := h.length_eq.trans h.key_space_eq.symm
  have hsmall' : t.key_space < UINT_RANGE := h.key_space_eq ▸ hsmall
  constructor
  · constructor
    · rintro ⟨out, ho⟩
      by_contra hf
      have hs := iterate_loop_short t hlen hsmall' fuel 0 [] (Nat.zero_le _)
        (by rw [h.key_space_eq]; omega)
      simp only [iterate, hs] at ho
      cases ho
    · intro hf
      exact ⟨_, (iterate_visits_entries mem n fuel t hn hsmall hr hf).1⟩
  · constructor
    · rintro ⟨out, ho⟩
      by_contra hf
      have hs := delete_loop_short t.key_space dd hsmall' fuel 0 t.map [] hlen (Nat.zero_le _)
        (by rw [h.key_space_eq]; omega)
      simp only [delete_hashmap, hs] at ho
      cases ho
    · intro hf
      exact ⟨_, delete_hashmap_destroys_entries mem n fuel t dd hn hsmall hr hf⟩

/-- The rounds of the bucket loops at a concrete input: four buckets. -/
theorem bucket_loops_end_after_key_space_rounds_witness :
    ((∃ out, iterate 5 (some ⟨[[], [⟨3, 1⟩], [⟨4, 2⟩], []], 4⟩) true = .ok out) ↔ 4 < 5) ∧
    ((∃ out, delete_hashmap 5 (some ⟨[[], [⟨3, 1⟩], [⟨4, 2⟩], []], 4⟩) true = .ok out)
      ↔ 4 < 5) :=
  bucket_loops_end_after_key_space_rounds mem_ex 4 5 ⟨[[], [⟨3, 1⟩], [⟨4, 2⟩], []], 4⟩ true
    (by decide) (by decide) ⟨[Op.insert 3 1 none, Op.insert 4 2 none], by decide⟩

end HashMapC
